import Mathlib

/-!
Verification of the hex-grid core (`hexgrid_utils.py`) of this repository.

Modelling conventions used throughout this file:
* Python integers are `Int`; integer cube/axial/offset coordinates are `Int`
  triples and pairs.  Python float arithmetic is modelled by exact rational
  arithmetic (`Rat`); the float literal `1e-6` is modelled by `1/1000000`.
* Python's built-in `round` (round half to even) is modelled by `pyRound`.
* A Python function that can raise an exception is modelled with `Option`
  (`none` = the call raises instead of returning).
* The two breadth-first-search loops, whose `while` loops need not terminate
  on the infinite hex grid, take an explicit fuel argument; `none` means the
  loop has not finished within the given fuel.
-/

abbrev CubeHex := ℤ × ℤ × ℤ
abbrev AxialHex := ℤ × ℤ
abbrev OffsetHex := ℤ × ℤ
abbrev FracHex := ℚ × ℚ × ℚ

/-- Zero-sum invariant `q + r + s = 0` of cube coordinates. -/
def zsum (h : CubeHex) : Prop := h.1 + h.2.1 + h.2.2 = 0

instance (h : CubeHex) : Decidable (zsum h) := by unfold zsum; infer_instance

/-- Hex direction vectors (cube coordinates), in the order of the source. -/
def CUBE_DIRECTIONS : List CubeHex :=
  [(1, 0, -1), (1, -1, 0), (0, -1, 1), (-1, 0, 1), (-1, 1, 0), (0, 1, -1)]

/-- Convert axial coordinates to cube coordinates. -/
def axial_to_cube (hex : AxialHex) : CubeHex := (hex.1, hex.2, -hex.1 - hex.2)

/-- Convert cube coordinates to axial coordinates. -/
def cube_to_axial (hex : CubeHex) : AxialHex := (hex.1, hex.2.1)

/-- Convert cube coordinates to odd-r offset coordinates.
Python's `r & 1` (bitwise parity, two's complement) is `r % 2` for `r : Int`
with Lean's `emod`, and Python's floor division `// 2` agrees with Lean's
`Int` division because the numerand is even. -/
def cube_to_oddr (hex : CubeHex) : OffsetHex :=
  (hex.1 + (hex.2.1 - hex.2.1 % 2) / 2, hex.2.1)

/-- Convert odd-r offset coordinates to cube coordinates. -/
def oddr_to_cube (hex : OffsetHex) : CubeHex :=
  let q := hex.1 - (hex.2 - hex.2 % 2) / 2
  (q, hex.2, -q - hex.2)

/-- Convert cube coordinates to even-r offset coordinates. -/
def cube_to_evenr (hex : CubeHex) : OffsetHex :=
  (hex.1 + (hex.2.1 + hex.2.1 % 2) / 2, hex.2.1)

/-- Convert even-r offset coordinates to cube coordinates. -/
def evenr_to_cube (hex : OffsetHex) : CubeHex :=
  let q := hex.1 - (hex.2 + hex.2 % 2) / 2
  (q, hex.2, -q - hex.2)

/-- Convert cube coordinates to odd-q offset coordinates. -/
def cube_to_oddq (hex : CubeHex) : OffsetHex :=
  (hex.1, hex.2.1 + (hex.1 - hex.1 % 2) / 2)

/-- Convert odd-q offset coordinates to cube coordinates. -/
def oddq_to_cube (hex : OffsetHex) : CubeHex :=
  let r := hex.2 - (hex.1 - hex.1 % 2) / 2
  (hex.1, r, -hex.1 - r)

/-- Convert cube coordinates to even-q offset coordinates. -/
def cube_to_evenq (hex : CubeHex) : OffsetHex :=
  (hex.1, hex.2.1 + (hex.1 + hex.1 % 2) / 2)

/-- Convert even-q offset coordinates to cube coordinates. -/
def evenq_to_cube (hex : OffsetHex) : CubeHex :=
  let r := hex.2 - (hex.1 + hex.1 % 2) / 2
  (hex.1, r, -hex.1 - r)

/-- Add two cube hex coordinates. -/
def cube_add (a b : CubeHex) : CubeHex := (a.1 + b.1, a.2.1 + b.2.1, a.2.2 + b.2.2)

/-- Subtract two cube hex coordinates. -/
def cube_subtract (a b : CubeHex) : CubeHex := (a.1 - b.1, a.2.1 - b.2.1, a.2.2 - b.2.2)

/-- Scale a cube hex coordinate by a factor. -/
def cube_scale (hex : CubeHex) (k : ℤ) : CubeHex := (hex.1 * k, hex.2.1 * k, hex.2.2 * k)

/-- Rotate a cube hex coordinate 60 degrees left (counter-clockwise). -/
def cube_rotate_left (hex : CubeHex) : CubeHex := (-hex.2.2, -hex.1, -hex.2.1)

/-- Rotate a cube hex coordinate 60 degrees right (clockwise). -/
def cube_rotate_right (hex : CubeHex) : CubeHex := (-hex.2.1, -hex.2.2, -hex.1)

/-- Calculate the distance between two cube hex coordinates
(`(abs Δq + abs Δr + abs Δs) // 2`; the Python result is a non-negative int). -/
def cube_distance (a b : CubeHex) : ℕ :=
  ((a.1 - b.1).natAbs + (a.2.1 - b.2.1).natAbs + (a.2.2 - b.2.2).natAbs) / 2

/-- Calculate the distance between two axial hex coordinates. -/
def axial_distance (a b : AxialHex) : ℕ :=
  cube_distance (axial_to_cube a) (axial_to_cube b)

/-- Get the neighbor of a cube hex in the specified direction
(`CUBE_DIRECTIONS[direction % 6]`; Python `%` on a positive modulus agrees
with Lean's `Int.emod`). -/
def cube_neighbor (hex : CubeHex) (direction : ℤ) : CubeHex :=
  cube_add hex (CUBE_DIRECTIONS.getD (direction % 6).toNat (0, 0, 0))

/-- Get all six neighbors of a cube hex. -/
def cube_neighbors (hex : CubeHex) : List CubeHex :=
  (List.range 6).map fun (dir : ℕ) => cube_neighbor hex (dir : ℤ)

/-- Python's built-in `round`: round to the nearest integer, ties to even. -/
def pyRound {α : Type*} [LinearOrderedField α] [FloorRing α] (x : α) : ℤ :=
  let n : ℤ := ⌊x⌋
  if x - n < 1 / 2 then n
  else if 1 / 2 < x - n then n + 1
  else if n % 2 = 0 then n else n + 1

/-- Linear interpolation between two (fractional) cube hexes; each component
is rounded by Python's `round`, so the source returns an integer triple. -/
def cube_lerp (a b : FracHex) (t : ℚ) : CubeHex :=
  (pyRound (a.1 + (b.1 - a.1) * t),
   pyRound (a.2.1 + (b.2.1 - a.2.1) * t),
   pyRound (a.2.2 + (b.2.2 - a.2.2) * t))

/-- Round fractional cube coordinates to the nearest whole hex, restoring the
zero-sum invariant on the component with the largest rounding error. -/
def cube_round {α : Type*} [LinearOrderedField α] [FloorRing α]
    (frac : α × α × α) : CubeHex :=
  let q := pyRound frac.1
  let r := pyRound frac.2.1
  let s := pyRound frac.2.2
  let q_diff := |(q : α) - frac.1|
  let r_diff := |(r : α) - frac.2.1|
  let s_diff := |(s : α) - frac.2.2|
  if q_diff > r_diff ∧ q_diff > s_diff then (-r - s, r, s)
  else if r_diff > s_diff then (q, -q - s, s)
  else (q, r, -q - r)

/-- Cast an integer cube hex to a fractional one (Python passes the integer
triple produced by `cube_lerp` straight into `cube_round`). -/
def cubeToFrac (h : CubeHex) : FracHex := ((h.1 : ℚ), (h.2.1 : ℚ), (h.2.2 : ℚ))

/-- The float literal `1e-6` of the source, as an exact rational. -/
def lineEps : ℚ := 1 / 1000000

/-- The endpoint nudge `(+1e-6, +1e-6, -2e-6)` applied by `cube_line`. -/
def cube_nudge (h : CubeHex) : FracHex :=
  ((h.1 : ℚ) + lineEps, (h.2.1 : ℚ) + lineEps, (h.2.2 : ℚ) - 2 * lineEps)

/-- Draw a line between two cube hexes.  When `N = cube_distance a b = 0`
the source evaluates `1.0 / N` and raises `ZeroDivisionError`, modelled by
`none`. -/
def cube_line (a b : CubeHex) : Option (List CubeHex) :=
  let N := cube_distance a b
  if N = 0 then none
  else some ((List.range (N + 1)).map fun (i : ℕ) =>
    cube_round (cubeToFrac (cube_lerp (cube_nudge a) (cube_nudge b)
      (1 / (N : ℚ) * (i : ℚ)))))

/-- Get all hexes in a ring around the center at the given radius: start at
`center + CUBE_DIRECTIONS[4] * radius` and walk six sides of length `radius`
(the state is the pair of the walking hex and the accumulated results). -/
def cube_ring (center : CubeHex) (radius : ℕ) : List CubeHex :=
  if radius = 0 then [center]
  else
    ((List.range 6).foldl
      (fun (st : CubeHex × List CubeHex) (i : ℕ) =>
        (List.range radius).foldl
          (fun st2 _ => (cube_neighbor st2.1 (i : ℤ), st2.2 ++ [st2.1])) st)
      (cube_add center (cube_scale (CUBE_DIRECTIONS.getD 4 (0, 0, 0)) (radius : ℤ)),
       [])).2

/-- Get all hexes in a spiral around the center up to the given radius
(`results = [center]` extended by `cube_ring center k` for `k = 1 .. radius`). -/
def cube_spiral (center : CubeHex) (radius : ℕ) : List CubeHex :=
  (List.range' 1 radius).foldl (fun results k => results ++ cube_ring center k) [center]

/-- Keys of an insertion-ordered association list (a Python dict). -/
def keysOf {β : Type*} (l : List (CubeHex × β)) : List CubeHex := l.map Prod.fst

/-- Lookup in an insertion-ordered association list (a Python dict). -/
def alook {β : Type*} (l : List (CubeHex × β)) (k : CubeHex) : Option β :=
  (l.find? fun e => decide (e.1 = k)).map Prod.snd

/-- The neighbor-expansion step of `cube_path`'s loop body: skip obstacles and
already-discovered hexes, append the rest to the frontier and record their
predecessor. -/
def path_expand (obstacles : Finset CubeHex) (current : CubeHex)
    (st : List CubeHex × List (CubeHex × Option CubeHex)) :
    List CubeHex × List (CubeHex × Option CubeHex) :=
  (cube_neighbors current).foldl
    (fun st2 neighbor =>
      if neighbor ∈ obstacles then st2
      else if neighbor ∈ keysOf st2.2 then st2
      else (st2.1 ++ [neighbor], st2.2 ++ [(neighbor, some current)]))
    st

/-- The `while frontier` loop of `cube_path`, with explicit fuel (`none` =
the loop did not finish within `fuel` iterations). -/
def cube_pathLoop (goal : CubeHex) (obstacles : Finset CubeHex) :
    ℕ → List CubeHex → List (CubeHex × Option CubeHex) →
    Option (List (CubeHex × Option CubeHex))
  | _, [], came_from => some came_from
  | 0, _ :: _, _ => none
  | fuel + 1, current :: rest, came_from =>
      if current = goal then some came_from
      else
        let st := path_expand obstacles current (rest, came_from)
        cube_pathLoop goal obstacles fuel st.1 st.2

/-- The path-reconstruction loop of `cube_path` (`path.append(current);
current = came_from[current]` until `start`, then append `start` and
reverse).  The fuel guards against a malformed predecessor map, on which the
source would not terminate or would crash. -/
def cube_path_walk (start : CubeHex) (came_from : List (CubeHex × Option CubeHex)) :
    ℕ → CubeHex → List CubeHex → Option (List CubeHex)
  | 0, _, _ => none
  | fuel + 1, current, path =>
      if current = start then some ((path ++ [start]).reverse)
      else
        match alook came_from current with
        | some (some prev) => cube_path_walk start came_from fuel prev (path ++ [current])
        | _ => none

/-- Find the shortest path between two hexes, avoiding obstacles.  Outer
`none`: the search loop has not terminated within `fuel` iterations.
`some none`: the source returns `None` ("no path", a value, not an
exception).  `some (some p)`: the source returns the path `p`. -/
def cube_path (fuel : ℕ) (start goal : CubeHex) (obstacles : Finset CubeHex) :
    Option (Option (List CubeHex)) :=
  match cube_pathLoop goal obstacles fuel [start] [(start, none)] with
  | none => none
  | some came_from =>
      match alook came_from goal with
      | none => some none
      | some _ =>
          (cube_path_walk start came_from (came_from.length + 1) goal []).map some

/-- The neighbor-expansion step of `cube_bfs`: skip obstacles, hexes already
in `distance`, and (when `max_distance` is set) expansion beyond the bound. -/
def bfs_expand (obstacles : Finset CubeHex) (max_distance : Option ℕ)
    (current : CubeHex) (dcur : ℕ)
    (st : List CubeHex × List (CubeHex × Option CubeHex) × List (CubeHex × ℕ)) :
    List CubeHex × List (CubeHex × Option CubeHex) × List (CubeHex × ℕ) :=
  (cube_neighbors current).foldl
    (fun st2 neighbor =>
      if neighbor ∈ obstacles then st2
      else if neighbor ∈ keysOf st2.2.2 then st2
      else if (match max_distance with | some m => decide (m ≤ dcur) | none => false : Bool) then st2
      else (st2.1 ++ [neighbor], st2.2.1 ++ [(neighbor, some current)],
            st2.2.2 ++ [(neighbor, dcur + 1)]))
    st

/-- The `while frontier` loop of `cube_bfs`, with explicit fuel.  A goal hex
being dequeued adds it to `found_goals`; once every goal has been dequeued
the loop breaks and returns the distance map. -/
def cube_bfsLoop (goals obstacles : Finset CubeHex) (max_distance : Option ℕ) :
    ℕ → List CubeHex → List (CubeHex × Option CubeHex) → List (CubeHex × ℕ) →
    Finset CubeHex → Option (List (CubeHex × ℕ))
  | _, [], _, distance, _ => some distance
  | 0, _ :: _, _, _, _ => none
  | fuel + 1, current :: rest, came_from, distance, found_goals =>
      let fg := if current ∈ goals then insert current found_goals else found_goals
      if current ∈ goals ∧ fg.card = goals.card then some distance
      else
        match alook distance current with
        | none => none
        | some dcur =>
            let st := bfs_expand obstacles max_distance current dcur
              (rest, came_from, distance)
            cube_bfsLoop goals obstacles max_distance fuel st.1 st.2.1 st.2.2 fg

/-- Breadth-first search on a hex grid, returning the distance map (the
insertion-ordered `distance` dict) reached at termination. -/
def cube_bfs (fuel : ℕ) (start : CubeHex) (goals obstacles : Finset CubeHex)
    (max_distance : Option ℕ) : Option (List (CubeHex × ℕ)) :=
  cube_bfsLoop goals obstacles max_distance fuel [start] [(start, none)] [(start, 0)] ∅

/-- Whether a rasterized line is blocked: some sample lies in the obstacle
set or farther than `radius` from the center (the source's early-`break`
loop computes exactly this existential). -/
def lineBlocked (center : CubeHex) (radius : ℕ) (obstacles : Finset CubeHex)
    (line : List CubeHex) : Bool :=
  line.any fun h => decide (h ∈ obstacles) || decide (radius < cube_distance center h)

/-- Process one candidate hex of the field-of-view scan (`none` propagates a
crash of `cube_line`, which in fact never happens for a ring hex). -/
def visStep (center : CubeHex) (radius : ℕ) (obstacles : Finset CubeHex)
    (visible : Finset CubeHex) (hex : CubeHex) : Option (Finset CubeHex) :=
  match cube_line center hex with
  | none => none
  | some line =>
      some (if lineBlocked center radius obstacles line then visible
            else insert hex visible)

/-- Calculate field of view from the center hex within the given radius,
avoiding obstacles: the center is always visible, and each hex of each ring
`1 .. radius` is visible unless its line from the center is blocked. -/
def cube_visible (center : CubeHex) (radius : ℕ) (obstacles : Finset CubeHex) :
    Option (Finset CubeHex) :=
  ((List.range radius).flatMap fun k => cube_ring center (k + 1)).foldlM
    (visStep center radius obstacles) {center}

/-- Generate a hexagonal map with the given radius around the center. -/
def generate_hex_map (radius : ℕ) (center : CubeHex) : Finset CubeHex :=
  (cube_spiral center radius).toFinset

/-- Generate a rectangular map with the given width and height.  The parity
scheme argument is accepted but never used by the source, which enumerates
all `(col, row)` pairs regardless (`range` of a non-positive int is empty). -/
def generate_rectangular_map (width height : ℤ) (offset_type : String) :
    Finset OffsetHex :=
  ((List.range width.toNat).flatMap fun col =>
    (List.range height.toNat).map fun row => ((col : ℤ), (row : ℤ))).toFinset

/-- Calculate the distance between two offset hex coordinates; an
unrecognized scheme tag raises `ValueError` (`none`). -/
def offset_distance (a b : OffsetHex) (offset_type : String) : Option ℕ :=
  if offset_type = "odd-r" then some (cube_distance (oddr_to_cube a) (oddr_to_cube b))
  else if offset_type = "even-r" then some (cube_distance (evenr_to_cube a) (evenr_to_cube b))
  else if offset_type = "odd-q" then some (cube_distance (oddq_to_cube a) (oddq_to_cube b))
  else if offset_type = "even-q" then some (cube_distance (evenq_to_cube a) (evenq_to_cube b))
  else none

/-- Get the neighbor of an offset hex in the specified direction; an
unrecognized scheme tag raises on the first dispatch (the second dispatch has
no `else` in the source and is unreachable with a bad tag). -/
def offset_neighbor (hex : OffsetHex) (direction : ℤ) (offset_type : String) :
    Option OffsetHex :=
  (if offset_type = "odd-r" then some (oddr_to_cube hex)
   else if offset_type = "even-r" then some (evenr_to_cube hex)
   else if offset_type = "odd-q" then some (oddq_to_cube hex)
   else if offset_type = "even-q" then some (evenq_to_cube hex)
   else none).bind fun cube =>
  let neighbor := cube_neighbor cube direction
  if offset_type = "odd-r" then some (cube_to_oddr neighbor)
  else if offset_type = "even-r" then some (cube_to_evenr neighbor)
  else if offset_type = "odd-q" then some (cube_to_oddq neighbor)
  else if offset_type = "even-q" then some (cube_to_evenq neighbor)
  else none

/-- Get all hexes in a ring around the center (offset coordinates). -/
def offset_ring (center : OffsetHex) (radius : ℕ) (offset_type : String) :
    Option (List OffsetHex) :=
  if offset_type = "odd-r" then
    some ((cube_ring (oddr_to_cube center) radius).map cube_to_oddr)
  else if offset_type = "even-r" then
    some ((cube_ring (evenr_to_cube center) radius).map cube_to_evenr)
  else if offset_type = "odd-q" then
    some ((cube_ring (oddq_to_cube center) radius).map cube_to_oddq)
  else if offset_type = "even-q" then
    some ((cube_ring (evenq_to_cube center) radius).map cube_to_evenq)
  else none

/-- Get all hexes in a spiral around the center (offset coordinates). -/
def offset_spiral (center : OffsetHex) (radius : ℕ) (offset_type : String) :
    Option (List OffsetHex) :=
  if offset_type = "odd-r" then
    some ((cube_spiral (oddr_to_cube center) radius).map cube_to_oddr)
  else if offset_type = "even-r" then
    some ((cube_spiral (evenr_to_cube center) radius).map cube_to_evenr)
  else if offset_type = "odd-q" then
    some ((cube_spiral (oddq_to_cube center) radius).map cube_to_oddq)
  else if offset_type = "even-q" then
    some ((cube_spiral (evenq_to_cube center) radius).map cube_to_evenq)
  else none

/-- Draw a line between two offset hexes (a crash of `cube_line` on equal
endpoints also propagates as `none`). -/
def offset_line (a b : OffsetHex) (offset_type : String) : Option (List OffsetHex) :=
  if offset_type = "odd-r" then
    (cube_line (oddr_to_cube a) (oddr_to_cube b)).map (List.map cube_to_oddr)
  else if offset_type = "even-r" then
    (cube_line (evenr_to_cube a) (evenr_to_cube b)).map (List.map cube_to_evenr)
  else if offset_type = "odd-q" then
    (cube_line (oddq_to_cube a) (oddq_to_cube b)).map (List.map cube_to_oddq)
  else if offset_type = "even-q" then
    (cube_line (evenq_to_cube a) (evenq_to_cube b)).map (List.map cube_to_evenq)
  else none

/-- Calculate field of view from an offset center hex. -/
def offset_visible (center : OffsetHex) (radius : ℕ) (obstacles : Finset OffsetHex)
    (offset_type : String) : Option (Finset OffsetHex) :=
  if offset_type = "odd-r" then
    (cube_visible (oddr_to_cube center) radius (obstacles.image oddr_to_cube)).map
      (Finset.image cube_to_oddr)
  else if offset_type = "even-r" then
    (cube_visible (evenr_to_cube center) radius (obstacles.image evenr_to_cube)).map
      (Finset.image cube_to_evenr)
  else if offset_type = "odd-q" then
    (cube_visible (oddq_to_cube center) radius (obstacles.image oddq_to_cube)).map
      (Finset.image cube_to_oddq)
  else if offset_type = "even-q" then
    (cube_visible (evenq_to_cube center) radius (obstacles.image evenq_to_cube)).map
      (Finset.image cube_to_evenq)
  else none

/-- Find the shortest path between two offset hexes, avoiding obstacles. -/
def offset_path (fuel : ℕ) (start goal : OffsetHex) (obstacles : Finset OffsetHex)
    (offset_type : String) : Option (Option (List OffsetHex)) :=
  if offset_type = "odd-r" then
    (cube_path fuel (oddr_to_cube start) (oddr_to_cube goal)
      (obstacles.image oddr_to_cube)).map (Option.map (List.map cube_to_oddr))
  else if offset_type = "even-r" then
    (cube_path fuel (evenr_to_cube start) (evenr_to_cube goal)
      (obstacles.image evenr_to_cube)).map (Option.map (List.map cube_to_evenr))
  else if offset_type = "odd-q" then
    (cube_path fuel (oddq_to_cube start) (oddq_to_cube goal)
      (obstacles.image oddq_to_cube)).map (Option.map (List.map cube_to_oddq))
  else if offset_type = "even-q" then
    (cube_path fuel (evenq_to_cube start) (evenq_to_cube goal)
      (obstacles.image evenq_to_cube)).map (Option.map (List.map cube_to_evenq))
  else none

/-- Layout record of the forward/inverse basis coefficients used for pixel
projection (the `LAYOUT_POINTY` / `LAYOUT_FLAT` dicts of the source). -/
structure HexOrientation where
  f0 : ℝ
  f1 : ℝ
  f2 : ℝ
  f3 : ℝ
  b0 : ℝ
  b1 : ℝ
  b2 : ℝ
  b3 : ℝ
  start_angle : ℝ

/-- Pointy-top layout constants. -/
noncomputable def LAYOUT_POINTY : HexOrientation :=
  { f0 := Real.sqrt 3, f1 := Real.sqrt 3 / 2, f2 := 0, f3 := 3 / 2,
    b0 := Real.sqrt 3 / 3, b1 := -1 / 3, b2 := 0, b3 := 2 / 3,
    start_angle := 1 / 2 }

/-- Flat-top layout constants. -/
noncomputable def LAYOUT_FLAT : HexOrientation :=
  { f0 := 3 / 2, f1 := 0, f2 := Real.sqrt 3 / 2, f3 := Real.sqrt 3,
    b0 := 2 / 3, b1 := 0, b2 := -1 / 3, b3 := Real.sqrt 3 / 3,
    start_angle := 0 }

/-- Layout selection shared by the pixel-facing functions: any tag other than
`"pointy"` (also an unrecognized one) selects the flat layout. -/
noncomputable def pixel_orientation (layout : String) : HexOrientation :=
  if layout = "pointy" then LAYOUT_POINTY else LAYOUT_FLAT

/-- Convert cube hex coordinates to pixel coordinates. -/
noncomputable def hex_to_pixel (hex : CubeHex) (size : ℝ) (layout : String) : ℝ × ℝ :=
  let o := pixel_orientation layout
  ((o.f0 * (hex.1 : ℝ) + o.f1 * (hex.2.1 : ℝ)) * size,
   (o.f2 * (hex.1 : ℝ) + o.f3 * (hex.2.1 : ℝ)) * size)

/-- Convert pixel coordinates to cube hex coordinates. -/
noncomputable def pixel_to_hex (point : ℝ × ℝ) (size : ℝ) (layout : String) : CubeHex :=
  let o := pixel_orientation layout
  let x := point.1 / size
  let y := point.2 / size
  let q := o.b0 * x + o.b1 * y
  let r := o.b2 * x + o.b3 * y
  cube_round (q, r, -q - r)

/-- Get the pixel offset for a hex corner (0-5). -/
noncomputable def hex_corner_offset (corner : ℤ) (size : ℝ) (layout : String) : ℝ × ℝ :=
  let angle_deg : ℝ := 60 * (corner : ℝ) + (if layout = "pointy" then 30 else 0)
  let angle_rad := Real.pi / 180 * angle_deg
  (size * Real.cos angle_rad, size * Real.sin angle_rad)

/-- Get all six corner points of a hex in pixel coordinates. -/
noncomputable def polygon_corners (hex : CubeHex) (size : ℝ) (layout : String) :
    List (ℝ × ℝ) :=
  let center := hex_to_pixel hex size layout
  (List.range 6).map fun (i : ℕ) =>
    let offset := hex_corner_offset (i : ℤ) size layout
    (center.1 + offset.1, center.2 + offset.2)

/-- Claim C7: for every parity scheme in odd-r, even-r, odd-q, even-q and
every cube hex `h` with `q + r + s = 0`, converting `h` to that offset scheme
and back to cube returns `h` exactly, and the axial round-trip also returns
`h`; every conversion is integer arithmetic only (they are `Int` functions). -/
theorem conversion_roundtrip (h : CubeHex) (hz : zsum h) :
    oddr_to_cube (cube_to_oddr h) = h ∧
    evenr_to_cube (cube_to_evenr h) = h ∧
    oddq_to_cube (cube_to_oddq h) = h ∧
    evenq_to_cube (cube_to_evenq h) = h ∧
    axial_to_cube (cube_to_axial h) = h := by
  obtain ⟨q, r, s⟩ := h
  have hz' : q + r + s = 0 := hz
  refine ⟨?_, ?_, ?_, ?_, ?_⟩ <;>
    simp [oddr_to_cube, cube_to_oddr, evenr_to_cube, cube_to_evenr,
      oddq_to_cube, cube_to_oddq, evenq_to_cube, cube_to_evenq,
      axial_to_cube, cube_to_axial, Prod.ext_iff] <;>
    omega

/-- Witness for C7 at the concrete hex `(3, -5, 2)`. -/
theorem conversion_roundtrip_witness :
    oddr_to_cube (cube_to_oddr (3, -5, 2)) = (3, -5, 2) ∧
    evenr_to_cube (cube_to_evenr (3, -5, 2)) = (3, -5, 2) ∧
    oddq_to_cube (cube_to_oddq (3, -5, 2)) = (3, -5, 2) ∧
    evenq_to_cube (cube_to_evenq (3, -5, 2)) = (3, -5, 2) ∧
    axial_to_cube (cube_to_axial (3, -5, 2)) = (3, -5, 2) :=
  conversion_roundtrip (3, -5, 2) (by decide)

/-- Claim C10: the rectangular map generator ignores its parity-scheme
argument entirely: any two scheme strings give the same result, with no
failure possible (the function is total), and the result is exactly the
set of pairs `(col, row)` with `0 ≤ col < width` and `0 ≤ row < height`. -/
theorem rectangular_map_scheme_independent (width height : ℤ) (s1 s2 : String) :
    generate_rectangular_map width height s1 = generate_rectangular_map width height s2 ∧
    ∀ col row : ℤ,
      ((col, row) ∈ generate_rectangular_map width height s1 ↔
        0 ≤ col ∧ col < width ∧ 0 ≤ row ∧ row < height) := by
  constructor
  · rfl
  · intro col row
    simp [generate_rectangular_map]
    constructor
    · rintro ⟨c, hc, ⟨rr, hrr, hrow⟩, hcol⟩
      omega
    · rintro ⟨h1, h2, h3, h4⟩
      exact ⟨col.toNat, by omega, ⟨row.toNat, by omega, by omega⟩, by omega⟩

/-- Claim C2 (code bug): for every hex `a`, `cube_line a a` raises
`ZeroDivisionError` (it computes `t = 1.0 / N` with `N = 0`) instead of
returning `[a]` as the specification states. -/
theorem cube_line_self_raises (a : CubeHex) : cube_line a a = none := by
  have : cube_distance a a = 0 := by
    simp [cube_distance, sub_self]
  simp [cube_line, this]

/-- Counterexample for claim C3: with the unrecognized scheme tag
`"no-such-scheme"`, rectangular map generation succeeds (returning the full
rectangle instead of failing), and the pixel-facing layout selection silently
falls back to the flat layout instead of failing. -/
theorem invalid_tag_not_rejected :
    generate_rectangular_map 1 1 "no-such-scheme" = {((0 : ℤ), (0 : ℤ))} ∧
    pixel_orientation "no-such-scheme" = LAYOUT_FLAT := by
  constructor
  · decide
  · rw [pixel_orientation, if_neg (by decide)]

/-- Claim C3 (amended): the seven offset-facing operations (distance,
neighbor, ring, spiral, line, visibility, path) do fail synchronously with a
`ValueError` on an unrecognized scheme tag, but rectangular map generation
ignores its scheme argument and succeeds for every tag, and the pixel-facing
functions (`hex_to_pixel`, `pixel_to_hex`, `hex_corner_offset`) silently
fall back to the flat layout for every tag other than `"pointy"`. -/
theorem scheme_tag_behavior (t : String)
    (ht : t ≠ "odd-r" ∧ t ≠ "even-r" ∧ t ≠ "odd-q" ∧ t ≠ "even-q") :
    (∀ a b, offset_distance a b t = none) ∧
    (∀ h d, offset_neighbor h d t = none) ∧
    (∀ c r, offset_ring c r t = none) ∧
    (∀ c r, offset_spiral c r t = none) ∧
    (∀ a b, offset_line a b t = none) ∧
    (∀ c r O, offset_visible c r O t = none) ∧
    (∀ f s g O, offset_path f s g O t = none) ∧
    (∀ w h, generate_rectangular_map w h t = generate_rectangular_map w h "odd-r") ∧
    (∀ l : String, l ≠ "pointy" →
      (∀ h sz, hex_to_pixel h sz l = hex_to_pixel h sz "flat") ∧
      (∀ p sz, pixel_to_hex p sz l = pixel_to_hex p sz "flat") ∧
      (∀ c sz, hex_corner_offset c sz l = hex_corner_offset c sz "flat")) := by
  obtain ⟨h1, h2, h3, h4⟩ := ht
  have hforient : ∀ l : String, l ≠ "pointy" →
      pixel_orientation l = pixel_orientation "flat" := by
    intro l hl
    rw [pixel_orientation, pixel_orientation, if_neg hl, if_neg (by decide)]
  refine ⟨?_, ?_, ?_, ?_, ?_, ?_, ?_, ?_, ?_⟩
  · intro a b; simp [offset_distance, h1, h2, h3, h4]
  · intro h d; simp [offset_neighbor, h1, h2, h3, h4]
  · intro c r; simp [offset_ring, h1, h2, h3, h4]
  · intro c r; simp [offset_spiral, h1, h2, h3, h4]
  · intro a b; simp [offset_line, h1, h2, h3, h4]
  · intro c r O; simp [offset_visible, h1, h2, h3, h4]
  · intro f s g O; simp [offset_path, h1, h2, h3, h4]
  · intro w h; rfl
  · intro l hl
    refine ⟨?_, ?_, ?_⟩
    · intro h sz; rw [hex_to_pixel, hex_to_pixel, hforient l hl]
    · intro p sz; rw [pixel_to_hex, pixel_to_hex, hforient l hl]
    · intro c sz
      rw [hex_corner_offset, hex_corner_offset, if_neg hl, if_neg (by decide)]

/-- Witness for C3 (amended) at the concrete tags `"bogus"` and `"weird"`. -/
theorem scheme_tag_behavior_witness :
    offset_distance (0, 0) (1, 1) "bogus" = none ∧
    offset_neighbor (0, 0) 0 "bogus" = none ∧
    offset_ring (0, 0) 1 "bogus" = none ∧
    offset_spiral (0, 0) 1 "bogus" = none ∧
    offset_line (0, 0) (1, 1) "bogus" = none ∧
    offset_visible (0, 0) 1 ∅ "bogus" = none ∧
    offset_path 5 (0, 0) (1, 1) ∅ "bogus" = none ∧
    generate_rectangular_map 2 3 "bogus" = generate_rectangular_map 2 3 "odd-r" ∧
    hex_to_pixel (1, 0, -1) 2 "weird" = hex_to_pixel (1, 0, -1) 2 "flat" ∧
    pixel_to_hex (1, 1) 2 "weird" = pixel_to_hex (1, 1) 2 "flat" ∧
    hex_corner_offset 1 2 "weird" = hex_corner_offset 1 2 "flat" := by
  have H := scheme_tag_behavior "bogus" ⟨by decide, by decide, by decide, by decide⟩
  have L := H.2.2.2.2.2.2.2.2 "weird" (by decide)
  exact ⟨H.1 _ _, H.2.1 _ _, H.2.2.1 _ _, H.2.2.2.1 _ _, H.2.2.2.2.1 _ _,
    H.2.2.2.2.2.1 _ _ _, H.2.2.2.2.2.2.1 _ _ _ _, H.2.2.2.2.2.2.2.1 _ _,
    L.1 _ _, L.2.1 _ _, L.2.2 _ _⟩

theorem pyRound_bounds (x : ℚ) : ⌊x⌋ ≤ pyRound x ∧ pyRound x ≤ ⌊x⌋ + 1 := by
  simp only [pyRound]
  split_ifs <;> omega

theorem pyRound_near (n : ℤ) (x : ℚ) (h1 : (n : ℚ) ≤ x) (h2 : x < (n : ℚ) + 1 / 2) :
    pyRound x = n := by
  have hfl : ⌊x⌋ = n := Int.floor_eq_iff.mpr ⟨h1, by linarith⟩
  simp only [pyRound, hfl]
  rw [if_pos (by linarith [h2])]

theorem pyRound_intCast (n : ℤ) : pyRound (n : ℚ) = n :=
  pyRound_near n _ le_rfl (by linarith)

theorem pyRound_mono {x y : ℚ} (h : x ≤ y) : pyRound x ≤ pyRound y := by
  have hf : ⌊x⌋ ≤ ⌊y⌋ := Int.floor_le_floor h
  rcases eq_or_lt_of_le hf with heq | hlt
  · have hx1 : (⌊x⌋ : ℚ) ≤ x := Int.floor_le x
    have hfr : x - ⌊x⌋ ≤ y - ⌊y⌋ := by
      rw [← heq]; linarith
    simp only [pyRound, ← heq]
    split_ifs <;> first | omega | linarith
  · have b1 := pyRound_bounds x
    have b2 := pyRound_bounds y
    omega

theorem pyRound_jump {x y : ℚ} (h1 : x ≤ y) (h2 : y < x + 1) :
    pyRound y ≤ pyRound x + 1 := by
  have hf : ⌊y⌋ ≤ ⌊x⌋ + 1 := by
    have : ⌊y⌋ ≤ ⌊x + 1⌋ := Int.floor_le_floor (le_of_lt h2)
    simpa using this
  have hfx : ⌊x⌋ ≤ ⌊y⌋ := Int.floor_le_floor h1
  have bx := pyRound_bounds x
  have by2 := pyRound_bounds y
  rcases eq_or_lt_of_le hfx with heq | hlt
  · omega
  · have hfy : ⌊y⌋ = ⌊x⌋ + 1 := by omega
    have hx1 : (⌊x⌋ : ℚ) ≤ x := Int.floor_le x
    have hy1 : (⌊y⌋ : ℚ) ≤ y := Int.floor_le y
    have hfry : y - ⌊y⌋ < x - ⌊x⌋ := by
      rw [hfy]; push_cast; linarith
    simp only [pyRound] at *
    split_ifs at * <;> first | omega | linarith

theorem pyRound_close {x y : ℚ} (h : |x - y| < 1) :
    (pyRound x - pyRound y).natAbs ≤ 1 := by
  have hab := abs_lt.mp h
  rcases le_total x y with hxy | hxy
  · have h1 := pyRound_mono hxy
    have h2 := pyRound_jump hxy (by linarith [hab.1])
    omega
  · have h1 := pyRound_mono hxy
    have h2 := pyRound_jump hxy (by linarith [hab.2])
    omega

theorem cube_round_intCast (q r s : ℤ) :
    cube_round (cubeToFrac (q, r, s)) = (q, r, -q - r) := by
  simp [cube_round, cubeToFrac, pyRound_intCast]

/-- Scalar form of one interpolated, rounded line-sample component (the
endpoint nudges cancel in the slope, leaving the base nudge on the left). -/
def lineComp (ac bc : ℤ) (N i : ℕ) : ℤ :=
  pyRound ((ac : ℚ) + lineEps + ((bc : ℚ) - (ac : ℚ)) * (1 / (N : ℚ) * (i : ℚ)))

theorem cube_line_eq (a b : CubeHex) (hN : cube_distance a b ≠ 0) :
    cube_line a b = some ((List.range (cube_distance a b + 1)).map fun i =>
      (lineComp a.1 b.1 (cube_distance a b) i,
       lineComp a.2.1 b.2.1 (cube_distance a b) i,
       -lineComp a.1 b.1 (cube_distance a b) i -
         lineComp a.2.1 b.2.1 (cube_distance a b) i)) := by
  simp only [cube_line, if_neg hN]
  refine congrArg some (List.map_congr_left ?_)
  intro i hi
  set N := cube_distance a b
  set t : ℚ := 1 / (N : ℚ) * (i : ℚ) with ht
  have e1 : (cube_nudge a).1 + ((cube_nudge b).1 - (cube_nudge a).1) * t =
      (a.1 : ℚ) + lineEps + ((b.1 : ℚ) - (a.1 : ℚ)) * t := by
    simp only [cube_nudge]; ring
  have e2 : (cube_nudge a).2.1 + ((cube_nudge b).2.1 - (cube_nudge a).2.1) * t =
      (a.2.1 : ℚ) + lineEps + ((b.2.1 : ℚ) - (a.2.1 : ℚ)) * t := by
    simp only [cube_nudge]; ring
  show cube_round (cubeToFrac (cube_lerp (cube_nudge a) (cube_nudge b) t)) = _
  rw [cube_lerp, e1, e2, cube_round_intCast]
  rfl

theorem lineComp_zero (ac bc : ℤ) (N : ℕ) : lineComp ac bc N 0 = ac := by
  unfold lineComp
  rw [Nat.cast_zero, mul_zero, mul_zero, add_zero]
  exact pyRound_near ac _ (by norm_num [lineEps]) (by norm_num [lineEps])

theorem lineComp_last (ac bc : ℤ) (N : ℕ) (hN : N ≠ 0) : lineComp ac bc N N = bc := by
  unfold lineComp
  have hq : (N : ℚ) ≠ 0 := Nat.cast_ne_zero.mpr hN
  have h1 : (1 : ℚ) / (N : ℚ) * (N : ℚ) = 1 := by field_simp
  rw [h1, mul_one]
  have h2 : (ac : ℚ) + lineEps + ((bc : ℚ) - (ac : ℚ)) = (bc : ℚ) + lineEps := by ring
  rw [h2]
  exact pyRound_near bc _ (by norm_num [lineEps]) (by norm_num [lineEps])

theorem lineComp_step (ac bc : ℤ) (N i : ℕ) (hN : N ≠ 0)
    (hd : (bc - ac).natAbs ≤ N) :
    (lineComp ac bc N (i + 1) - lineComp ac bc N i).natAbs ≤ 1 := by
  have hqN : (N : ℚ) ≠ 0 := Nat.cast_ne_zero.mpr hN
  have hNpos : (0 : ℚ) < (N : ℚ) := by
    exact_mod_cast Nat.pos_of_ne_zero hN
  have hcast : (bc : ℚ) - (ac : ℚ) = ((bc - ac : ℤ) : ℚ) := by push_cast; ring
  by_cases hcase : (bc - ac).natAbs = N
  · rcases Int.natAbs_eq (bc - ac) with he | he
    · have hbc : (bc : ℚ) - (ac : ℚ) = (N : ℚ) := by
        rw [hcast, he, hcase]; push_cast; ring
      have hall : ∀ j : ℕ, lineComp ac bc N j = ac + (j : ℤ) := by
        intro j
        unfold lineComp
        rw [hbc]
        have hNj : (N : ℚ) * (1 / (N : ℚ) * (j : ℚ)) = (j : ℚ) := by field_simp
        rw [hNj]
        have hrw : (ac : ℚ) + lineEps + (j : ℚ) = ((ac + (j : ℤ) : ℤ) : ℚ) + lineEps := by
          push_cast; ring
        rw [hrw]
        exact pyRound_near _ _ (by norm_num [lineEps]) (by norm_num [lineEps])
      rw [hall (i + 1), hall i]
      push_cast
      omega
    · have hbc : (bc : ℚ) - (ac : ℚ) = -(N : ℚ) := by
        rw [hcast, he, hcase]; push_cast; ring
      have hall : ∀ j : ℕ, lineComp ac bc N j = ac - (j : ℤ) := by
        intro j
        unfold lineComp
        rw [hbc]
        have hNj : (-(N : ℚ)) * (1 / (N : ℚ) * (j : ℚ)) = -(j : ℚ) := by
          field_simp
          ring
        rw [hNj]
        have hrw : (ac : ℚ) + lineEps + -(j : ℚ) = ((ac - (j : ℤ) : ℤ) : ℚ) + lineEps := by
          push_cast; ring
        rw [hrw]
        exact pyRound_near _ _ (by norm_num [lineEps]) (by norm_num [lineEps])
      rw [hall (i + 1), hall i]
      push_cast
      omega
  · have hlt : (bc - ac).natAbs < N := by omega
    have key : |(bc : ℚ) - (ac : ℚ)| = (((bc - ac).natAbs : ℕ) : ℚ) := by
      rw [hcast, Int.cast_natAbs, Int.cast_abs]
    have habs :
        |((ac : ℚ) + lineEps + ((bc : ℚ) - (ac : ℚ)) * (1 / (N : ℚ) * ((i + 1 : ℕ) : ℚ))) -
          ((ac : ℚ) + lineEps + ((bc : ℚ) - (ac : ℚ)) * (1 / (N : ℚ) * (i : ℚ)))| < 1 := by
      have hdiff :
          ((ac : ℚ) + lineEps + ((bc : ℚ) - (ac : ℚ)) * (1 / (N : ℚ) * ((i + 1 : ℕ) : ℚ))) -
            ((ac : ℚ) + lineEps + ((bc : ℚ) - (ac : ℚ)) * (1 / (N : ℚ) * (i : ℚ))) =
            ((bc : ℚ) - (ac : ℚ)) / (N : ℚ) := by
        push_cast
        field_simp
        ring
      rw [hdiff, abs_div, abs_of_pos hNpos, div_lt_one hNpos, key]
      exact_mod_cast hlt
    exact pyRound_close habs

theorem cube_distance_eq_zero_iff (a b : CubeHex) (ha : zsum a) (hb : zsum b) :
    cube_distance a b = 0 ↔ a = b := by
  obtain ⟨q, r, s⟩ := a; obtain ⟨q2, r2, s2⟩ := b
  have h1 : q + r + s = 0 := ha
  have h2 : q2 + r2 + s2 = 0 := hb
  simp only [cube_distance, Prod.mk.injEq]
  omega

theorem cube_delta_le (a b : CubeHex) (ha : zsum a) (hb : zsum b) :
    (b.1 - a.1).natAbs ≤ cube_distance a b ∧
    (b.2.1 - a.2.1).natAbs ≤ cube_distance a b := by
  obtain ⟨q, r, s⟩ := a; obtain ⟨q2, r2, s2⟩ := b
  have h1 : q + r + s = 0 := ha
  have h2 : q2 + r2 + s2 = 0 := hb
  simp only [cube_distance]
  omega

theorem cube_distance_le_two (q1 r1 q2 r2 : ℤ) (h1 : (q2 - q1).natAbs ≤ 1)
    (h2 : (r2 - r1).natAbs ≤ 1) :
    cube_distance (q1, r1, -q1 - r1) (q2, r2, -q2 - r2) ≤ 2 := by
  simp only [cube_distance]
  omega

/-- Claim C1 (amended): for every pair of distinct cube hexes `a` and `b`,
`line(a,b)` returns exactly `distance(a,b)+1` hexes, the first equal to `a`
and the last equal to `b`, and every pair of consecutive hexes in the
returned sequence is at cube distance at most 2 (not always exactly 1: equal
nudges on the q and r components let both rounded components step in the
same iteration). -/
theorem cube_line_spec (a b : CubeHex) (ha : zsum a) (hb : zsum b) (hab : a ≠ b) :
    ∃ l, cube_line a b = some l ∧
      l.length = cube_distance a b + 1 ∧
      l.head? = some a ∧
      l.getLast? = some b ∧
      l.Chain' fun x y => cube_distance x y ≤ 2 := by
  have hN : cube_distance a b ≠ 0 := fun h =>
    hab ((cube_distance_eq_zero_iff a b ha hb).mp h)
  set N := cube_distance a b with hNdef
  set f : ℕ → CubeHex := fun i =>
    (lineComp a.1 b.1 N i, lineComp a.2.1 b.2.1 N i,
     -lineComp a.1 b.1 N i - lineComp a.2.1 b.2.1 N i) with hf
  have hf0 : f 0 = a := by
    obtain ⟨q, r, s⟩ := a
    have hz : q + r + s = 0 := ha
    simp only [hf, lineComp_zero, Prod.mk.injEq, true_and]
    omega
  have hfN : f N = b := by
    obtain ⟨q, r, s⟩ := b
    have hz : q + r + s = 0 := hb
    simp only [hf, lineComp_last _ _ _ hN, Prod.mk.injEq, true_and]
    omega
  refine ⟨(List.range (N + 1)).map f, cube_line_eq a b hN, by simp, ?_, ?_, ?_⟩
  · rw [List.range_succ_eq_map, List.map_cons, List.head?_cons, hf0]
  · rw [List.range_succ, List.map_append, List.map_singleton,
      List.getLast?_concat, hfN]
  · rw [List.chain'_map, List.chain'_range_succ]
    intro m hm
    have s1 := lineComp_step a.1 b.1 N m hN (cube_delta_le a b ha hb).1
    have s2 := lineComp_step a.2.1 b.2.1 N m hN (cube_delta_le a b ha hb).2
    exact cube_distance_le_two _ _ _ _ s1 s2

theorem pyRound_nearUp (n : ℤ) (x : ℚ) (h1 : (n : ℚ) + 1 / 2 < x)
    (h2 : x < (n : ℚ) + 1) : pyRound x = n + 1 := by
  have hfl : ⌊x⌋ = n := Int.floor_eq_iff.mpr ⟨by linarith, by linarith⟩
  simp only [pyRound, hfl]
  rw [if_neg (by linarith), if_pos (by linarith)]

/-- Counterexample for claim C1 as stated: on the distinct hexes `(0,0,0)`
and `(1,1,-2)` the returned line contains a consecutive pair at cube
distance 2 (and a duplicated hex), not distance exactly 1. -/
theorem cube_line_counterexample :
    cube_line (0, 0, 0) (1, 1, -2) =
      some [(0, 0, 0), (1, 1, -2), (1, 1, -2)] ∧
    cube_distance (0, 0, 0) (1, 1, -2) = 2 ∧
    ¬ ([(0, 0, 0), (1, 1, -2), (1, 1, -2)] : List CubeHex).Chain'
        (fun x y => cube_distance x y = 1) := by
  have hd : cube_distance ((0, 0, 0) : CubeHex) (1, 1, -2) = 2 := by decide
  have hmid : lineComp 0 1 2 1 = 1 := by
    unfold lineComp
    have hv : ((0 : ℤ) : ℚ) + lineEps + (((1 : ℤ) : ℚ) - ((0 : ℤ) : ℚ)) *
        (1 / ((2 : ℕ) : ℚ) * ((1 : ℕ) : ℚ)) = (0 : ℚ) + 1 / 2 + 1 / 1000000 := by
      norm_num [lineEps]
    rw [hv]
    have := pyRound_nearUp 0 ((0 : ℚ) + 1 / 2 + 1 / 1000000) (by norm_num) (by norm_num)
    simpa using this
  refine ⟨?_, hd, fun hch => absurd (List.chain'_cons.mp hch).1 (by decide)⟩
  rw [cube_line_eq (0, 0, 0) (1, 1, -2) (by decide), hd]
  have h0 : lineComp 0 1 2 0 = 0 := lineComp_zero 0 1 2
  have h2 : lineComp 0 1 2 2 = 1 := lineComp_last 0 1 2 (by decide)
  simp only [show (2 : ℕ) + 1 = 3 from rfl, List.range_succ, List.range_zero,
    List.nil_append, List.cons_append, List.map_cons, List.map_nil,
    List.map_append, List.map_singleton]
  norm_num [h0, hmid, h2]

/-- Witness for C1 (amended) at the concrete hexes `(0,0,0)`, `(2,0,-2)`. -/
theorem cube_line_spec_witness :
    ∃ l, cube_line (0, 0, 0) (2, 0, -2) = some l ∧
      l.length = cube_distance (0, 0, 0) (2, 0, -2) + 1 ∧
      l.head? = some (0, 0, 0) ∧
      l.getLast? = some (2, 0, -2) ∧
      l.Chain' fun x y => cube_distance x y ≤ 2 :=
  cube_line_spec (0, 0, 0) (2, 0, -2) (by decide) (by decide) (by decide)

/-- Direction vector at a list index (as used by the ring walk). -/
def dirAt (i : ℕ) : CubeHex := CUBE_DIRECTIONS.getD i (0, 0, 0)

/-- Direction of the corner starting side `i` of a ring: side `i` starts at
`center + radius * dirAt ((i + 4) % 6)`. -/
def cornerDir (i : ℕ) : CubeHex := dirAt ((i + 4) % 6)

theorem cube_neighbor_natCast (i : ℕ) (hi : i < 6) (h : CubeHex) :
    cube_neighbor h (i : ℤ) = cube_add h (dirAt i) := by
  unfold cube_neighbor dirAt
  have he : (((i : ℕ) : ℤ) % 6).toNat = i := by omega
  rw [he]

theorem cube_add_scale_zero (h d : CubeHex) : cube_add h (cube_scale d 0) = h := by
  simp [cube_add, cube_scale]

theorem cube_add_scale_succ (h d : CubeHex) (m : ℤ) :
    cube_add (cube_add h (cube_scale d m)) d = cube_add h (cube_scale d (m + 1)) := by
  simp only [cube_add, cube_scale, Prod.mk.injEq]
  refine ⟨by ring, by ring, by ring⟩

theorem ring_walk (i : ℕ) (hi : i < 6) (m : ℕ) :
    ∀ (h0 : CubeHex) (acc : List CubeHex),
    (List.range m).foldl
      (fun st2 _ => (cube_neighbor st2.1 (i : ℤ), st2.2 ++ [st2.1])) (h0, acc) =
    (cube_add h0 (cube_scale (dirAt i) (m : ℤ)),
     acc ++ (List.range m).map fun (j : ℕ) => cube_add h0 (cube_scale (dirAt i) (j : ℤ))) := by
  induction m with
  | zero =>
      intro h0 acc
      simp [cube_add_scale_zero]
  | succ m ih =>
      intro h0 acc
      rw [List.range_succ, List.foldl_append, ih]
      simp only [List.foldl_cons, List.foldl_nil]
      rw [cube_neighbor_natCast i hi, cube_add_scale_succ, List.map_append,
        List.map_singleton, ← List.append_assoc]
      push_cast
      rfl

theorem cube_ring_eq (c : CubeHex) (r : ℕ) (hr : r ≠ 0) :
    cube_ring c r = (List.range 6).flatMap fun i =>
      (List.range r).map fun (j : ℕ) =>
        cube_add (cube_add c (cube_scale (cornerDir i) (r : ℤ)))
          (cube_scale (dirAt i) (j : ℤ)) := by
  unfold cube_ring
  rw [if_neg hr]
  rw [show List.range 6 = [0, 1, 2, 3, 4, 5] from rfl]
  simp only [List.foldl_cons, List.foldl_nil]
  rw [ring_walk 0 (by omega), ring_walk 1 (by omega), ring_walk 2 (by omega),
      ring_walk 3 (by omega), ring_walk 4 (by omega), ring_walk 5 (by omega)]
  obtain ⟨c1, c2, c3⟩ := c
  simp only [List.flatMap_cons, List.flatMap_nil, List.append_nil, List.nil_append,
    List.append_assoc, cube_add, cube_scale, dirAt, cornerDir, CUBE_DIRECTIONS,
    List.getD_cons_zero, List.getD_cons_succ]
  norm_num

theorem dirAt_0 : dirAt 0 = (1, 0, -1) := rfl
theorem dirAt_1 : dirAt 1 = (1, -1, 0) := rfl
theorem dirAt_2 : dirAt 2 = (0, -1, 1) := rfl
theorem dirAt_3 : dirAt 3 = (-1, 0, 1) := rfl
theorem dirAt_4 : dirAt 4 = (-1, 1, 0) := rfl
theorem dirAt_5 : dirAt 5 = (0, 1, -1) := rfl
theorem cornerDir_0 : cornerDir 0 = (-1, 1, 0) := rfl
theorem cornerDir_1 : cornerDir 1 = (0, 1, -1) := rfl
theorem cornerDir_2 : cornerDir 2 = (1, 0, -1) := rfl
theorem cornerDir_3 : cornerDir 3 = (1, -1, 0) := rfl
theorem cornerDir_4 : cornerDir 4 = (0, -1, 1) := rfl
theorem cornerDir_5 : cornerDir 5 = (-1, 0, 1) := rfl

theorem cube_ring_mem (c : CubeHex) (r : ℕ) (hr : r ≠ 0) (x : CubeHex) :
    x ∈ cube_ring c r ↔ ∃ i < 6, ∃ j < r,
      x = cube_add (cube_add c (cube_scale (cornerDir i) (r : ℤ)))
            (cube_scale (dirAt i) (j : ℤ)) := by
  rw [cube_ring_eq c r hr]
  simp only [List.mem_flatMap, List.mem_map, List.mem_range]
  constructor
  · rintro ⟨i, hi, j, hj, rfl⟩
    exact ⟨i, hi, j, hj, rfl⟩
  · rintro ⟨i, hi, j, hj, rfl⟩
    exact ⟨i, hi, j, hj, rfl⟩

theorem cube_ring_distance (c : CubeHex) (r : ℕ) (hr : r ≠ 0) :
    ∀ h ∈ cube_ring c r, cube_distance c h = r := by
  intro h hh
  rw [cube_ring_mem c r hr] at hh
  obtain ⟨i, hi, j, hj, rfl⟩ := hh
  obtain ⟨c1, c2, c3⟩ := c
  interval_cases i <;>
    · simp only [dirAt_0, dirAt_1, dirAt_2, dirAt_3, dirAt_4, dirAt_5,
        cornerDir_0, cornerDir_1, cornerDir_2, cornerDir_3, cornerDir_4, cornerDir_5,
        cube_add, cube_scale, cube_distance]
      omega

theorem cube_ring_nodup (c : CubeHex) (r : ℕ) (hr : r ≠ 0) :
    (cube_ring c r).Nodup := by
  have key : ∀ i < 6, ∀ i' < 6, ∀ j < r, ∀ j' < r,
      (i, j) ≠ (i', j') →
      cube_add (cube_add c (cube_scale (cornerDir i) (r : ℤ)))
          (cube_scale (dirAt i) (j : ℤ)) ≠
        cube_add (cube_add c (cube_scale (cornerDir i') (r : ℤ)))
          (cube_scale (dirAt i') (j' : ℤ)) := by
    intro i hi i' hi' j hj j' hj' hne heq
    obtain ⟨c1, c2, c3⟩ := c
    apply hne
    interval_cases i <;> interval_cases i' <;>
      · simp only [dirAt_0, dirAt_1, dirAt_2, dirAt_3, dirAt_4, dirAt_5,
          cornerDir_0, cornerDir_1, cornerDir_2, cornerDir_3, cornerDir_4, cornerDir_5,
          cube_add, cube_scale, Prod.mk.injEq, true_and] at heq ⊢
        omega
  rw [cube_ring_eq c r hr]
  rw [List.nodup_flatMap]
  constructor
  · intro i hi
    rw [List.mem_range] at hi
    refine List.Nodup.map_on ?_ (List.nodup_range r)
    intro j hj j' hj' heq
    rw [List.mem_range] at hj hj'
    by_contra hne
    exact key i hi i hi j hj j' hj'
      (fun hp => hne ((Prod.mk.injEq _ _ _ _).mp hp).2) heq
  · refine (List.pairwise_lt_range 6).imp_of_mem ?_
    intro a b ha hb hlt
    rw [List.mem_range] at ha hb
    intro x hx hx'
    simp only [Function.onFun, List.mem_map, List.mem_range] at hx hx'
    obtain ⟨j, hj, rfl⟩ := hx
    obtain ⟨j', hj', heq⟩ := hx'
    exact key a ha b hb j hj j' hj'
      (fun hp => absurd ((Prod.mk.injEq _ _ _ _).mp hp).1 (Nat.ne_of_lt hlt)) heq.symm

theorem cube_ring_length (c : CubeHex) (r : ℕ) (hr : r ≠ 0) :
    (cube_ring c r).length = 6 * r := by
  rw [cube_ring_eq c r hr]
  rw [show List.range 6 = [0, 1, 2, 3, 4, 5] from rfl]
  simp [List.length_append, List.length_map, List.length_range]
  ring

theorem cube_ring_head (c : CubeHex) (r : ℕ) (hr : r ≠ 0) :
    (cube_ring c r).head? =
      some (cube_add c (cube_scale (CUBE_DIRECTIONS.getD 4 (0, 0, 0)) (r : ℤ))) := by
  rw [cube_ring_eq c r hr]
  obtain ⟨m, rfl⟩ := Nat.exists_eq_succ_of_ne_zero hr
  rw [show List.range 6 = 0 :: [1, 2, 3, 4, 5] from rfl, List.flatMap_cons,
    List.range_succ_eq_map, List.map_cons, List.cons_append, List.head?_cons]
  rw [show ((0 : ℕ) : ℤ) = 0 from rfl, cube_add_scale_zero]
  rfl

theorem cube_spiral_eq (c : CubeHex) (r : ℕ) :
    cube_spiral c r = c :: (List.range r).flatMap fun k => cube_ring c (k + 1) := by
  induction r with
  | zero => rfl
  | succ m ih =>
      unfold cube_spiral at ih ⊢
      rw [List.range'_concat 1 m, List.foldl_append, ih, List.foldl_cons,
        List.foldl_nil, List.range_succ, List.flatMap_append]
      simp [Nat.add_comm]

theorem cube_spiral_length (c : CubeHex) (r : ℕ) :
    (cube_spiral c r).length = 3 * r * r + 3 * r + 1 := by
  rw [cube_spiral_eq]
  have key : ∀ n, ((List.range n).flatMap fun k => cube_ring c (k + 1)).length =
      3 * n * n + 3 * n := by
    intro n
    induction n with
    | zero => rfl
    | succ m ih =>
        rw [List.range_succ, List.flatMap_append, List.length_append, ih]
        simp only [List.flatMap_cons, List.flatMap_nil, List.append_nil]
        rw [cube_ring_length c (m + 1) (Nat.succ_ne_zero m)]
        ring
  rw [List.length_cons, key]

theorem cube_spiral_nodup (c : CubeHex) (r : ℕ) : (cube_spiral c r).Nodup := by
  rw [cube_spiral_eq, List.nodup_cons]
  constructor
  · intro hc
    rw [List.mem_flatMap] at hc
    obtain ⟨k, hk, hmem⟩ := hc
    have hd := cube_ring_distance c (k + 1) (Nat.succ_ne_zero k) c hmem
    simp [cube_distance, sub_self] at hd
  · rw [List.nodup_flatMap]
    constructor
    · intro k hk
      exact cube_ring_nodup c (k + 1) (Nat.succ_ne_zero k)
    · refine (List.pairwise_lt_range r).imp_of_mem ?_
      intro a b ha hb hlt
      intro x hx hx'
      simp only [Function.onFun] at hx hx'
      have d1 := cube_ring_distance c (a + 1) (Nat.succ_ne_zero a) x hx
      have d2 := cube_ring_distance c (b + 1) (Nat.succ_ne_zero b) x hx'
      omega

/-- Claim C6: `ring(center, 0) = [center]`; for `r > 0` the ring begins at
`center + CUBE_DIRECTIONS[4] * r` and contains exactly `6r` pairwise-distinct
hexes, each at cube distance exactly `r` from the center; the spiral is the
center followed by the rings `1 .. r` in increasing order and has
`3r² + 3r + 1` distinct hexes in total. -/
theorem ring_spiral_spec (c : CubeHex) (r : ℕ) :
    cube_ring c 0 = [c] ∧
    (0 < r →
      (cube_ring c r).head? =
        some (cube_add c (cube_scale (CUBE_DIRECTIONS.getD 4 (0, 0, 0)) (r : ℤ))) ∧
      (cube_ring c r).length = 6 * r ∧
      (cube_ring c r).Nodup ∧
      ∀ h ∈ cube_ring c r, cube_distance c h = r) ∧
    cube_spiral c r = c :: ((List.range r).flatMap fun k => cube_ring c (k + 1)) ∧
    (cube_spiral c r).length = 3 * r * r + 3 * r + 1 ∧
    (cube_spiral c r).Nodup :=
  ⟨rfl,
   fun hr => ⟨cube_ring_head c r (by omega), cube_ring_length c r (by omega),
     cube_ring_nodup c r (by omega), cube_ring_distance c r (by omega)⟩,
   cube_spiral_eq c r, cube_spiral_length c r, cube_spiral_nodup c r⟩

/-- Witness for C6 at the concrete center `(1, -2, 1)` and radius `2`. -/
theorem ring_spiral_spec_witness :
    cube_ring (1, -2, 1) 0 = [(1, -2, 1)] ∧
    ((cube_ring (1, -2, 1) 2).head? =
        some (cube_add (1, -2, 1)
          (cube_scale (CUBE_DIRECTIONS.getD 4 (0, 0, 0)) ((2 : ℕ) : ℤ))) ∧
      (cube_ring (1, -2, 1) 2).length = 6 * 2 ∧
      (cube_ring (1, -2, 1) 2).Nodup ∧
      ∀ h ∈ cube_ring (1, -2, 1) 2, cube_distance (1, -2, 1) h = 2) ∧
    cube_spiral (1, -2, 1) 2 =
      (1, -2, 1) :: ((List.range 2).flatMap fun k => cube_ring (1, -2, 1) (k + 1)) ∧
    (cube_spiral (1, -2, 1) 2).length = 3 * 2 * 2 + 3 * 2 + 1 ∧
    (cube_spiral (1, -2, 1) 2).Nodup := by
  have H := ring_spiral_spec (1, -2, 1) 2
  exact ⟨H.1, H.2.1 (by decide), H.2.2.1, H.2.2.2.1, H.2.2.2.2⟩

theorem cube_line_isSome (a b : CubeHex) (h : cube_distance a b ≠ 0) :
    (cube_line a b).isSome := by
  simp [cube_line, h]

theorem lineBlocked_mono (center : CubeHex) (radius : ℕ) {O O' : Finset CubeHex}
    (hsub : O' ⊆ O) (l : List CubeHex)
    (h : lineBlocked center radius O l = false) :
    lineBlocked center radius O' l = false := by
  rw [lineBlocked, List.any_eq_false] at h ⊢
  intro x hx
  have := h x hx
  simp only [Bool.or_eq_true, decide_eq_true_eq, not_or] at this ⊢
  exact ⟨fun hmem => this.1 (hsub hmem), this.2⟩

theorem visible_fold_spec (center : CubeHex) (radius : ℕ) (obstacles : Finset CubeHex) :
    ∀ (hexes : List CubeHex) (vis0 : Finset CubeHex),
    (∀ h ∈ hexes, cube_distance center h ≠ 0) →
    ∃ v, hexes.foldlM (visStep center radius obstacles) vis0 = some v ∧
      ∀ x, x ∈ v ↔ x ∈ vis0 ∨ ∃ h ∈ hexes, x = h ∧
        ∃ l, cube_line center h = some l ∧
          lineBlocked center radius obstacles l = false := by
  intro hexes
  induction hexes with
  | nil =>
      intro vis0 _
      exact ⟨vis0, rfl, fun x => by simp⟩
  | cons h t ih =>
      intro vis0 hall
      have hd : cube_distance center h ≠ 0 := hall h (List.mem_cons_self h t)
      obtain ⟨l, hl⟩ := Option.isSome_iff_exists.mp (cube_line_isSome center h hd)
      have hstep : visStep center radius obstacles vis0 h =
          some (if lineBlocked center radius obstacles l then vis0
                else insert h vis0) := by
        rw [visStep, hl]
      by_cases hb : lineBlocked center radius obstacles l = true
      · obtain ⟨v, hv, hiff⟩ := ih vis0 (fun x hx => hall x (List.mem_cons_of_mem h hx))
        refine ⟨v, ?_, ?_⟩
        · rw [List.foldlM_cons, hstep, hb, if_pos rfl]
          exact hv
        · intro x
          rw [hiff x]
          constructor
          · rintro (hx | ⟨h', hh', rfl, l', hl', hnb⟩)
            · exact Or.inl hx
            · exact Or.inr ⟨x, List.mem_cons_of_mem h hh', rfl, l', hl', hnb⟩
          · rintro (hx | ⟨h', hh', rfl, l', hl', hnb⟩)
            · exact Or.inl hx
            · rcases List.mem_cons.mp hh' with rfl | hh'
              · rw [hl'] at hl
                cases hl
                rw [hnb] at hb
                cases hb
              · exact Or.inr ⟨x, hh', rfl, l', hl', hnb⟩
      · rw [Bool.not_eq_true] at hb
        obtain ⟨v, hv, hiff⟩ := ih (insert h vis0)
          (fun x hx => hall x (List.mem_cons_of_mem h hx))
        refine ⟨v, ?_, ?_⟩
        · rw [List.foldlM_cons, hstep, hb, if_neg (by simp)]
          exact hv
        · intro x
          rw [hiff x]
          simp only [Finset.mem_insert]
          constructor
          · rintro ((rfl | hx) | ⟨h', hh', rfl, l', hl', hnb⟩)
            · exact Or.inr ⟨x, List.mem_cons_self x t, rfl, l, hl, hb⟩
            · exact Or.inl hx
            · exact Or.inr ⟨x, List.mem_cons_of_mem h hh', rfl, l', hl', hnb⟩
          · rintro (hx | ⟨h', hh', rfl, l', hl', hnb⟩)
            · exact Or.inl (Or.inr hx)
            · rcases List.mem_cons.mp hh' with rfl | hh'
              · exact Or.inl (Or.inl rfl)
              · exact Or.inr ⟨x, hh', rfl, l', hl', hnb⟩

theorem cube_visible_spec (center : CubeHex) (radius : ℕ) (obstacles : Finset CubeHex) :
    ∃ v, cube_visible center radius obstacles = some v ∧
      ∀ x, x ∈ v ↔ x = center ∨
        ∃ h ∈ (List.range radius).flatMap fun k => cube_ring center (k + 1),
          x = h ∧ ∃ l, cube_line center h = some l ∧
            lineBlocked center radius obstacles l = false := by
  have hall : ∀ h ∈ (List.range radius).flatMap fun k => cube_ring center (k + 1),
      cube_distance center h ≠ 0 := by
    intro h hh
    rw [List.mem_flatMap] at hh
    obtain ⟨k, hk, hmem⟩ := hh
    rw [cube_ring_distance center (k + 1) (Nat.succ_ne_zero k) h hmem]
    omega
  obtain ⟨v, hv, hiff⟩ := visible_fold_spec center radius obstacles _ {center} hall
  exact ⟨v, hv, fun x => by rw [hiff x, Finset.mem_singleton]⟩

/-- Claim C9: field of view is monotone in the obstacle set: for obstacle
sets `O' ⊆ O`, every hex visible under `O` is visible under `O'` (and both
calls succeed). -/
theorem cube_visible_monotone (center : CubeHex) (radius : ℕ)
    (O O' : Finset CubeHex) (hsub : O' ⊆ O) :
    (cube_visible center radius O).isSome ∧
    (cube_visible center radius O').isSome ∧
    (cube_visible center radius O).getD ∅ ⊆ (cube_visible center radius O').getD ∅ := by
  obtain ⟨v, hv, hiff⟩ := cube_visible_spec center radius O
  obtain ⟨v', hv', hiff'⟩ := cube_visible_spec center radius O'
  rw [hv, hv']
  refine ⟨rfl, rfl, ?_⟩
  intro x hx
  simp only [Option.getD_some] at hx ⊢
  rw [hiff x] at hx
  rw [hiff' x]
  rcases hx with rfl | ⟨h, hh, rfl, l, hl, hnb⟩
  · exact Or.inl rfl
  · exact Or.inr ⟨x, hh, rfl, l, hl, lineBlocked_mono center radius hsub l hnb⟩

/-- Witness for C9 at center `(0,0,0)`, radius 1, obstacle sets
`{(1,0,-1)} ⊇ ∅`. -/
theorem cube_visible_monotone_witness :
    (cube_visible (0, 0, 0) 1 {(1, 0, -1)}).isSome ∧
    (cube_visible (0, 0, 0) 1 (∅ : Finset CubeHex)).isSome ∧
    (cube_visible (0, 0, 0) 1 {(1, 0, -1)}).getD ∅ ⊆
      (cube_visible (0, 0, 0) 1 (∅ : Finset CubeHex)).getD ∅ :=
  cube_visible_monotone (0, 0, 0) 1 {(1, 0, -1)} ∅ (Finset.empty_subset _)

theorem mem_keysOf {β : Type*} {l : List (CubeHex × β)} {k : CubeHex} :
    k ∈ keysOf l ↔ ∃ v, (k, v) ∈ l := by
  unfold keysOf
  rw [List.mem_map]
  constructor
  · rintro ⟨⟨k', v⟩, hm, rfl⟩
    exact ⟨v, hm⟩
  · rintro ⟨v, hm⟩
    exact ⟨(k, v), hm, rfl⟩

theorem alook_eq_some {β : Type*} {l : List (CubeHex × β)} {k : CubeHex} {v : β}
    (h : alook l k = some v) : (k, v) ∈ l := by
  unfold alook at h
  obtain ⟨e, he, hev⟩ := Option.map_eq_some'.mp h
  have hm := List.mem_of_find?_eq_some he
  have hp := List.find?_some he
  rw [decide_eq_true_eq] at hp
  obtain ⟨k', v'⟩ := e
  cases hp
  cases hev
  exact hm

theorem alook_eq_none {β : Type*} {l : List (CubeHex × β)} {k : CubeHex} :
    alook l k = none ↔ k ∉ keysOf l := by
  unfold alook
  rw [Option.map_eq_none', List.find?_eq_none, mem_keysOf]
  constructor
  · rintro hall ⟨v, hm⟩
    have := hall (k, v) hm
    simp at this
  · intro hno x hx
    simp only [decide_eq_true_eq]
    intro hk
    obtain ⟨x1, x2⟩ := x
    subst hk
    exact hno ⟨x2, hx⟩

theorem keysOf_append {β : Type*} (l1 l2 : List (CubeHex × β)) :
    keysOf (l1 ++ l2) = keysOf l1 ++ keysOf l2 :=
  List.map_append _ _ _

theorem cube_neighbors_eq (h : CubeHex) :
    cube_neighbors h =
      [cube_add h (1, 0, -1), cube_add h (1, -1, 0), cube_add h (0, -1, 1),
       cube_add h (-1, 0, 1), cube_add h (-1, 1, 0), cube_add h (0, 1, -1)] := by
  unfold cube_neighbors
  rw [show List.range 6 = [0, 1, 2, 3, 4, 5] from rfl]
  simp only [List.map_cons, List.map_nil,
    cube_neighbor_natCast 0 (by omega), cube_neighbor_natCast 1 (by omega),
    cube_neighbor_natCast 2 (by omega), cube_neighbor_natCast 3 (by omega),
    cube_neighbor_natCast 4 (by omega), cube_neighbor_natCast 5 (by omega),
    dirAt_0, dirAt_1, dirAt_2, dirAt_3, dirAt_4, dirAt_5]

theorem cube_neighbors_nodup (h : CubeHex) : (cube_neighbors h).Nodup := by
  obtain ⟨q, r, s⟩ := h
  rw [cube_neighbors_eq]
  simp [List.nodup_cons, List.mem_cons, List.mem_singleton, List.not_mem_nil,
    List.nodup_nil, cube_add, Prod.mk.injEq, not_or, and_true]

/-- The invariant of the predecessor map built by `cube_path`'s search loop:
the first entry is `(start, none)`, keys are distinct, only `start` has a
`none` predecessor, and every later entry has a predecessor among strictly
earlier keys and is not an obstacle. -/
structure CFGood (start : CubeHex) (obstacles : Finset CubeHex)
    (cf : List (CubeHex × Option CubeHex)) : Prop where
  head_start : cf.head? = some (start, none)
  nodup_keys : (keysOf cf).Nodup
  parent_none : ∀ e ∈ cf, e.2 = none → e.1 = start
  parent_good : ∀ i (hi : i < cf.length), 0 < i →
    ∃ p, (cf.get ⟨i, hi⟩).2 = some p ∧ p ∈ keysOf (cf.take i) ∧
      (cf.get ⟨i, hi⟩).1 ∉ obstacles

theorem CFGood.key_start {start : CubeHex} {obstacles : Finset CubeHex}
    {cf : List (CubeHex × Option CubeHex)} (inv : CFGood start obstacles cf) :
    start ∈ keysOf cf := by
  have h := inv.head_start
  cases cf with
  | nil => cases h
  | cons e t =>
      rw [List.head?_cons, Option.some_inj] at h
      subst h
      exact List.mem_cons_self _ _

theorem CFGood.eq_cons {start : CubeHex} {obstacles : Finset CubeHex}
    {cf : List (CubeHex × Option CubeHex)} (inv : CFGood start obstacles cf) :
    ∃ t, cf = (start, none) :: t := by
  have hh := inv.head_start
  cases cf with
  | nil => cases hh
  | cons e t =>
      rw [List.head?_cons, Option.some_inj] at hh
      exact ⟨t, by rw [hh]⟩

theorem CFGood.mem_not_obstacle {start : CubeHex} {obstacles : Finset CubeHex}
    {cf : List (CubeHex × Option CubeHex)} (inv : CFGood start obstacles cf)
    {x : CubeHex} (hx : x ∈ keysOf cf) (hne : x ≠ start) : x ∉ obstacles := by
  obtain ⟨t, hcf⟩ := inv.eq_cons
  subst hcf
  rw [mem_keysOf] at hx
  obtain ⟨v, hv⟩ := hx
  rcases List.mem_cons.mp hv with heq | hmem
  · exact absurd (congrArg Prod.fst heq) hne
  · obtain ⟨i, hget⟩ := List.mem_iff_get.mp hmem
    have hi : i.1 + 1 < ((start, none) :: t).length := by
      simp only [List.length_cons]
      omega
    obtain ⟨p, hp, hpmem, hobs⟩ := inv.parent_good (i.1 + 1) hi (by omega)
    rw [show (((start, none) :: t).get ⟨i.1 + 1, hi⟩) = t.get ⟨i.1, by omega⟩ from rfl]
      at hobs
    rw [show (⟨i.1, by omega⟩ : Fin t.length) = i from Fin.eta i i.2, hget] at hobs
    exact hobs

theorem CFGood.append1 {start : CubeHex} {obstacles : Finset CubeHex}
    {cf : List (CubeHex × Option CubeHex)} (inv : CFGood start obstacles cf)
    {n p : CubeHex} (hp : p ∈ keysOf cf) (hn : n ∉ keysOf cf) (hobs : n ∉ obstacles) :
    CFGood start obstacles (cf ++ [(n, some p)]) := by
  obtain ⟨t, hcf⟩ := inv.eq_cons
  constructor
  · rw [hcf, List.cons_append, List.head?_cons]
  · rw [keysOf_append]
    refine List.Nodup.append inv.nodup_keys (List.nodup_singleton n) ?_
    intro a ha ha'
    rw [show keysOf [(n, some p)] = [n] from rfl, List.mem_singleton] at ha'
    subst ha'
    exact hn ha
  · intro e he
    rcases List.mem_append.mp he with he | he
    · exact inv.parent_none e he
    · rw [List.mem_singleton] at he
      subst he
      intro hcon
      cases hcon
  · intro i hi hpos
    rw [List.length_append, List.length_singleton] at hi
    rcases Nat.lt_or_ge i cf.length with hlt | hge
    · obtain ⟨q, hq, hqmem, hqobs⟩ := inv.parent_good i hlt hpos
      refine ⟨q, ?_, ?_, ?_⟩
      · rw [List.get_eq_getElem, List.getElem_append_left hlt]
        rw [List.get_eq_getElem] at hq
        exact hq
      · rw [List.take_append_of_le_length (by omega)]
        exact hqmem
      · rw [List.get_eq_getElem, List.getElem_append_left hlt]
        rw [List.get_eq_getElem] at hqobs
        exact hqobs
    · have hieq : i = cf.length := by omega
      subst hieq
      refine ⟨p, ?_, ?_, ?_⟩
      · rw [List.get_eq_getElem]
        simp only [Fin.val_mk]
        rw [List.getElem_append_right (by omega)]
        simp
      · rw [List.take_left]
        exact hp
      · rw [List.get_eq_getElem]
        simp only [Fin.val_mk]
        rw [List.getElem_append_right (by omega)]
        simpa using hobs

theorem CFGood.appendList {start : CubeHex} {obstacles : Finset CubeHex} {p : CubeHex} :
    ∀ (new : List CubeHex) (cf : List (CubeHex × Option CubeHex)),
    CFGood start obstacles cf → p ∈ keysOf cf →
    new.Nodup → (∀ n ∈ new, n ∉ keysOf cf ∧ n ∉ obstacles) →
    CFGood start obstacles (cf ++ new.map fun n => (n, some p)) := by
  intro new
  induction new with
  | nil =>
      intro cf inv hp _ _
      simpa using inv
  | cons n t ih =>
      intro cf inv hp hnd hall
      rw [List.nodup_cons] at hnd
      have h1 := hall n (List.mem_cons_self n t)
      have step := inv.append1 hp h1.1 h1.2
      have hres := ih (cf ++ [(n, some p)]) step
        (by rw [keysOf_append]; exact List.mem_append_left _ hp)
        hnd.2
        (by
          intro m hm
          have h2 := hall m (List.mem_cons_of_mem n hm)
          refine ⟨?_, h2.2⟩
          rw [keysOf_append]
          intro hcon
          rcases List.mem_append.mp hcon with hcon | hcon
          · exact h2.1 hcon
          · rw [show keysOf [(n, some p)] = [n] from rfl, List.mem_singleton] at hcon
            subst hcon
            exact hnd.1 hm)
      rw [List.map_cons]
      rw [show cf ++ ((n, some p) :: t.map fun m => (m, some p)) =
        (cf ++ [(n, some p)]) ++ t.map (fun m => (m, some p)) by simp]
      exact hres

theorem expand_fold_eq (obstacles : Finset CubeHex) (current : CubeHex) :
    ∀ (ns : List CubeHex), ns.Nodup →
    ∀ (front : List CubeHex) (cf : List (CubeHex × Option CubeHex)),
    ns.foldl (fun st2 neighbor =>
      if neighbor ∈ obstacles then st2
      else if neighbor ∈ keysOf st2.2 then st2
      else (st2.1 ++ [neighbor], st2.2 ++ [(neighbor, some current)])) (front, cf) =
    (front ++ ns.filter fun n => !decide (n ∈ obstacles) && !decide (n ∈ keysOf cf),
     cf ++ (ns.filter fun n =>
       !decide (n ∈ obstacles) && !decide (n ∈ keysOf cf)).map
         fun n => (n, some current)) := by
  intro ns
  induction ns with
  | nil =>
      intro _ front cf
      simp
  | cons n t ih =>
      intro hnd front cf
      rw [List.nodup_cons] at hnd
      rw [List.foldl_cons]
      by_cases h1 : n ∈ obstacles
      · rw [if_pos h1, ih hnd.2 front cf]
        have hc : (!decide (n ∈ obstacles) && !decide (n ∈ keysOf cf)) = false := by
          simp [h1]
        simp [List.filter_cons, hc]
      · by_cases h2 : n ∈ keysOf cf
        · rw [if_neg h1, if_pos h2, ih hnd.2 front cf]
          have hc : (!decide (n ∈ obstacles) && !decide (n ∈ keysOf cf)) = false := by
            simp [h2]
          simp [List.filter_cons, hc]
        · rw [if_neg h1, if_neg h2, ih hnd.2 (front ++ [n]) (cf ++ [(n, some current)])]
          have hc : (!decide (n ∈ obstacles) && !decide (n ∈ keysOf cf)) = true := by
            simp [h1, h2]
          have hfilter : (t.filter fun m =>
              !decide (m ∈ obstacles) &&
                !decide (m ∈ keysOf (cf ++ [(n, some current)]))) =
              t.filter fun m => !decide (m ∈ obstacles) && !decide (m ∈ keysOf cf) := by
            apply List.filter_congr
            intro m hm
            have hmn : m ≠ n := fun heq => hnd.1 (heq ▸ hm)
            by_cases hmc : m ∈ List.map Prod.fst cf
            · have hmc2 : m ∈ List.map Prod.fst (cf ++ [(n, some current)]) := by
                rw [List.map_append]
                exact List.mem_append_left _ hmc
              simp [keysOf, hmc, hmc2]
            · have hmc2 : m ∉ List.map Prod.fst (cf ++ [(n, some current)]) := by
                rw [List.map_append]
                intro hcon
                rcases List.mem_append.mp hcon with hh | hh
                · exact hmc hh
                · simp at hh
                  exact hmn hh
              simp [keysOf, hmc, hmc2]
              intro _
              exact hmn
          rw [hfilter]
          simp [List.filter_cons, hc, List.append_assoc]

theorem path_expand_eq (obstacles : Finset CubeHex) (current : CubeHex)
    (front : List CubeHex) (cf : List (CubeHex × Option CubeHex)) :
    path_expand obstacles current (front, cf) =
    (front ++ (cube_neighbors current).filter
       fun n => !decide (n ∈ obstacles) && !decide (n ∈ keysOf cf),
     cf ++ ((cube_neighbors current).filter fun n =>
       !decide (n ∈ obstacles) && !decide (n ∈ keysOf cf)).map
         fun n => (n, some current)) := by
  unfold path_expand
  exact expand_fold_eq obstacles current (cube_neighbors current)
    (cube_neighbors_nodup current) front cf

theorem keysOf_map_parent (p : CubeHex) (l : List CubeHex) :
    keysOf (l.map fun n => (n, some p)) = l := by
  unfold keysOf
  rw [List.map_map]
  exact List.map_id'' (fun x => rfl) l

theorem new_nodes_spec (obstacles : Finset CubeHex) (current : CubeHex)
    (cf : List (CubeHex × Option CubeHex)) :
    ((cube_neighbors current).filter fun n =>
        !decide (n ∈ obstacles) && !decide (n ∈ keysOf cf)).Nodup ∧
    ∀ n ∈ (cube_neighbors current).filter fun n =>
        !decide (n ∈ obstacles) && !decide (n ∈ keysOf cf),
      n ∈ cube_neighbors current ∧ n ∉ obstacles ∧ n ∉ keysOf cf := by
  constructor
  · exact (cube_neighbors_nodup current).filter _
  · intro n hn
    rw [List.mem_filter] at hn
    refine ⟨hn.1, ?_, ?_⟩
    · have := hn.2
      simp only [Bool.and_eq_true, Bool.not_eq_true', decide_eq_false_iff_not] at this
      exact this.1
    · have := hn.2
      simp only [Bool.and_eq_true, Bool.not_eq_true', decide_eq_false_iff_not] at this
      exact this.2

theorem cube_pathLoop_good (goal : CubeHex) (obstacles : Finset CubeHex)
    (start : CubeHex) :
    ∀ (fuel : ℕ) (frontier : List CubeHex) (cf : List (CubeHex × Option CubeHex)),
    CFGood start obstacles cf → (∀ x ∈ frontier, x ∈ keysOf cf) →
    ∀ cf', cube_pathLoop goal obstacles fuel frontier cf = some cf' →
    CFGood start obstacles cf' := by
  intro fuel
  induction fuel with
  | zero =>
      intro frontier cf inv hfs cf' hloop
      cases frontier with
      | nil =>
          simp only [cube_pathLoop, Option.some_inj] at hloop
          subst hloop
          exact inv
      | cons current rest => cases hloop
  | succ fuel ih =>
      intro frontier cf inv hfs cf' hloop
      cases frontier with
      | nil =>
          simp only [cube_pathLoop, Option.some_inj] at hloop
          subst hloop
          exact inv
      | cons current rest =>
          simp only [cube_pathLoop] at hloop
          by_cases hg : current = goal
          · rw [if_pos hg, Option.some_inj] at hloop
            subst hloop
            exact inv
          · rw [if_neg hg] at hloop
            have hcur : current ∈ keysOf cf :=
              hfs current (List.mem_cons_self current rest)
            rw [path_expand_eq] at hloop
            obtain ⟨hnd, hprops⟩ := new_nodes_spec obstacles current cf
            refine ih _ _ ?_ ?_ cf' hloop
            · exact CFGood.appendList _ cf inv hcur hnd
                (fun n hn => ⟨(hprops n hn).2.2, (hprops n hn).2.1⟩)
            · intro x hx
              rw [keysOf_append]
              rcases List.mem_append.mp hx with hx | hx
              · exact List.mem_append_left _ (hfs x (List.mem_cons_of_mem _ hx))
              · refine List.mem_append_right _ ?_
                rw [keysOf_map_parent]
                exact hx

theorem CFGood.parent_mem {start : CubeHex} {obstacles : Finset CubeHex}
    {cf : List (CubeHex × Option CubeHex)} (inv : CFGood start obstacles cf)
    {cur prev : CubeHex} (hmem : (cur, some prev) ∈ cf) : prev ∈ keysOf cf := by
  obtain ⟨t, hcf⟩ := inv.eq_cons
  subst hcf
  rcases List.mem_cons.mp hmem with heq | hmem'
  · exact absurd (congrArg Prod.snd heq) (by simp)
  · obtain ⟨i, hget⟩ := List.mem_iff_get.mp hmem'
    have hi : i.1 + 1 < ((start, none) :: t).length := by
      simp only [List.length_cons]
      omega
    obtain ⟨p', hp', hpmem, _⟩ := inv.parent_good (i.1 + 1) hi (by omega)
    rw [show (((start, none) :: t).get ⟨i.1 + 1, hi⟩) = t.get ⟨i.1, by omega⟩ from rfl]
      at hp'
    rw [show (⟨i.1, by omega⟩ : Fin t.length) = i from Fin.eta i i.2, hget] at hp'
    rw [show ((cur, some prev) : CubeHex × Option CubeHex).2 = some prev from rfl,
      Option.some_inj] at hp'
    subst hp'
    have hsub : keysOf (((start, none) :: t).take (i.1 + 1)) ⊆
        keysOf ((start, none) :: t) := by
      unfold keysOf
      rw [List.map_take]
      exact List.take_subset _ _
    exact hsub hpmem

theorem cube_path_walk_spec (start : CubeHex) (obstacles : Finset CubeHex)
    (cf : List (CubeHex × Option CubeHex)) (inv : CFGood start obstacles cf) :
    ∀ (fuel : ℕ) (cur : CubeHex) (acc : List CubeHex) (p : List CubeHex),
    cur ∈ keysOf cf →
    cube_path_walk start cf fuel cur acc = some p →
    ∃ ch : List CubeHex, p = (acc ++ ch).reverse ∧ ch ≠ [] ∧
      ch.head? = some cur ∧ ch.getLast? = some start ∧ ∀ x ∈ ch, x ∈ keysOf cf := by
  intro fuel
  induction fuel with
  | zero =>
      intro cur acc p hcur hw
      cases hw
  | succ fuel ih =>
      intro cur acc p hcur hw
      rw [cube_path_walk] at hw
      by_cases hc : cur = start
      · rw [if_pos hc, Option.some_inj] at hw
        subst hc
        refine ⟨[cur], hw.symm, by simp, by simp, by simp, ?_⟩
        intro x hx
        rw [List.mem_singleton] at hx
        subst hx
        exact hcur
      · rw [if_neg hc] at hw
        rcases halook : alook cf cur with _ | v
        · rw [halook] at hw
          simp at hw
        · rcases v with _ | prev
          · rw [halook] at hw
            simp at hw
          · rw [halook] at hw
            have hmem : (cur, some prev) ∈ cf := alook_eq_some halook
            have hprev : prev ∈ keysOf cf := inv.parent_mem hmem
            obtain ⟨ch, hch, hne, hhd, hlast, hsub⟩ := ih prev (acc ++ [cur]) p hprev hw
            refine ⟨cur :: ch, ?_, by simp, by simp, ?_, ?_⟩
            · rw [hch, List.append_assoc]
              rfl
            · obtain ⟨y, t', rfl⟩ := List.exists_cons_of_ne_nil hne
              rw [List.getLast?_cons_cons]
              exact hlast
            · intro x hx
              rcases List.mem_cons.mp hx with rfl | hx
              · exact hcur
              · exact hsub x hx

/-- Claim C4 (amended): `shortestPath` returns the distinguished `None`
result (a value, not an exception) exactly when its search loop finishes
without ever recording `goal` in the predecessor map; whenever a path is
returned it runs from `start` to `goal` inclusive, in order, and contains no
obstacle hex other than possibly `start` itself — a `start` lying in the
obstacle set is still expanded, so the search can succeed and the returned
path then contains that obstacle hex. -/
theorem cube_path_spec (fuel : ℕ) (start goal : CubeHex) (obstacles : Finset CubeHex) :
    (∀ p, cube_path fuel start goal obstacles = some (some p) →
      p.head? = some start ∧ p.getLast? = some goal ∧
      ∀ x ∈ p, x = start ∨ x ∉ obstacles) ∧
    (cube_path fuel start goal obstacles = some none ↔
      ∃ cf, cube_pathLoop goal obstacles fuel [start] [(start, none)] = some cf ∧
        alook cf goal = none) := by
  have hinit : CFGood start obstacles [(start, none)] := by
    constructor
    · rfl
    · simp [keysOf]
    · intro e he
      rw [List.mem_singleton] at he
      subst he
      intro _
      rfl
    · intro i hi hpos
      simp only [List.length_singleton] at hi
      omega
  have hfs0 : ∀ x ∈ [start],
      x ∈ keysOf [((start, none) : CubeHex × Option CubeHex)] := by
    intro x hx
    rw [List.mem_singleton] at hx
    subst hx
    simp [keysOf]
  constructor
  · intro p hp
    unfold cube_path at hp
    rcases hloop : cube_pathLoop goal obstacles fuel [start] [(start, none)]
      with _ | cf
    · rw [hloop] at hp
      cases hp
    · rw [hloop] at hp
      dsimp only at hp
      have hgood := cube_pathLoop_good goal obstacles start fuel _ _ hinit hfs0 cf hloop
      rcases halook : alook cf goal with _ | v
      · rw [halook] at hp
        cases hp
      · rw [halook] at hp
        dsimp only at hp
        rcases hwalk : cube_path_walk start cf (cf.length + 1) goal [] with _ | q
        · rw [hwalk] at hp
          cases hp
        · rw [hwalk] at hp
          have hq : q = p := by
            simpa using hp
          subst hq
          have hgmem : goal ∈ keysOf cf := mem_keysOf.mpr ⟨v, alook_eq_some halook⟩
          obtain ⟨ch, hch, hne, hhd, hlast, hsub⟩ :=
            cube_path_walk_spec start obstacles cf hgood (cf.length + 1) goal [] q
              hgmem hwalk
          rw [hch]
          simp only [List.nil_append]
          refine ⟨?_, ?_, ?_⟩
          · rw [List.head?_reverse]
            exact hlast
          · rw [List.getLast?_reverse]
            exact hhd
          · intro x hx
            rw [List.mem_reverse] at hx
            by_cases hxs : x = start
            · exact Or.inl hxs
            · exact Or.inr (hgood.mem_not_obstacle (hsub x hx) hxs)
  · constructor
    · intro hp
      unfold cube_path at hp
      rcases hloop : cube_pathLoop goal obstacles fuel [start] [(start, none)]
        with _ | cf
      · rw [hloop] at hp
        cases hp
      · rw [hloop] at hp
        dsimp only at hp
        rcases halook : alook cf goal with _ | v
        · exact ⟨cf, rfl, halook⟩
        · rw [halook] at hp
          dsimp only at hp
          rcases hwalk : cube_path_walk start cf (cf.length + 1) goal [] with _ | q
          · rw [hwalk] at hp
            cases hp
          · rw [hwalk] at hp
            simp at hp
    · rintro ⟨cf, hloop, halook⟩
      unfold cube_path
      rw [hloop]
      dsimp only
      rw [halook]

/-- Counterexample for C4 as stated: with `start = (0,0,0)` itself in the
obstacle set, the search still discovers the adjacent goal `(1,0,-1)` and
returns a path containing the obstacle hex `(0,0,0)` instead of the
distinguished no-path result. -/
theorem cube_path_counterexample :
    cube_path 3 (0, 0, 0) (1, 0, -1) {(0, 0, 0)} =
      some (some [(0, 0, 0), (1, 0, -1)]) ∧
    ((0, 0, 0) : CubeHex) ∈ ({(0, 0, 0)} : Finset CubeHex) :=
  ⟨by decide, by decide⟩

/-- Witness for C4 (amended): the returned path on a concrete obstacle-free
search runs from the start to the goal and avoids (the empty set of)
obstacles. -/
theorem cube_path_spec_witness :
    ([(0, 0, 0), (1, 0, -1), (2, 0, -2)] : List CubeHex).head? = some (0, 0, 0) ∧
    ([(0, 0, 0), (1, 0, -1), (2, 0, -2)] : List CubeHex).getLast? = some (2, 0, -2) ∧
    ∀ x ∈ ([(0, 0, 0), (1, 0, -1), (2, 0, -2)] : List CubeHex),
      x = (0, 0, 0) ∨ x ∉ (∅ : Finset CubeHex) :=
  (cube_path_spec 10 (0, 0, 0) (2, 0, -2) ∅).1 [(0, 0, 0), (1, 0, -1), (2, 0, -2)]
    (by decide)

theorem cube_round_zsum {α : Type*} [LinearOrderedField α] [FloorRing α]
    (frac : α × α × α) : zsum (cube_round frac) := by
  unfold cube_round zsum
  dsimp only
  split_ifs <;> dsimp only <;> ring

theorem getD_dir_zsum (i : ℕ) : zsum (CUBE_DIRECTIONS.getD i (0, 0, 0)) := by
  rcases i with _ | _ | _ | _ | _ | _ | j <;> simp [CUBE_DIRECTIONS, zsum, List.getD]

theorem zsum_add {a b : CubeHex} (ha : zsum a) (hb : zsum b) : zsum (cube_add a b) := by
  unfold zsum cube_add at *
  dsimp only at *
  omega

theorem zsum_scale {h : CubeHex} (hz : zsum h) (k : ℤ) : zsum (cube_scale h k) := by
  unfold zsum cube_scale at *
  dsimp only
  have : h.2.2 = -h.1 - h.2.1 := by omega
  rw [this]
  ring

theorem zsum_neighbor {h : CubeHex} (hz : zsum h) (d : ℤ) :
    zsum (cube_neighbor h d) :=
  zsum_add hz (getD_dir_zsum _)

theorem zsum_ring {c : CubeHex} (hc : zsum c) (r : ℕ) :
    ∀ h ∈ cube_ring c r, zsum h := by
  intro h hh
  rcases Nat.eq_zero_or_pos r with hr | hr
  · subst hr
    rw [show cube_ring c 0 = [c] from rfl, List.mem_singleton] at hh
    subst hh
    exact hc
  · rw [cube_ring_mem c r (by omega)] at hh
    obtain ⟨i, hi, j, hj, rfl⟩ := hh
    exact zsum_add (zsum_add hc (zsum_scale (getD_dir_zsum _) _))
      (zsum_scale (getD_dir_zsum _) _)

theorem zsum_spiral {c : CubeHex} (hc : zsum c) (r : ℕ) :
    ∀ h ∈ cube_spiral c r, zsum h := by
  intro h hh
  rw [cube_spiral_eq] at hh
  rcases List.mem_cons.mp hh with rfl | hh
  · exact hc
  · rw [List.mem_flatMap] at hh
    obtain ⟨k, hk, hmem⟩ := hh
    exact zsum_ring hc (k + 1) h hmem

theorem zsum_line (a b : CubeHex) (l : List CubeHex) (hl : cube_line a b = some l) :
    ∀ h ∈ l, zsum h := by
  intro h hh
  unfold cube_line at hl
  by_cases hN : cube_distance a b = 0
  · rw [if_pos hN] at hl
    cases hl
  · rw [if_neg hN, Option.some_inj] at hl
    subst hl
    rw [List.mem_map] at hh
    obtain ⟨i, hi, rfl⟩ := hh
    exact cube_round_zsum _

theorem zsum_neighbors {h : CubeHex} (hz : zsum h) :
    ∀ n ∈ cube_neighbors h, zsum n := by
  intro n hn
  unfold cube_neighbors at hn
  rw [List.mem_map] at hn
  obtain ⟨d, _, rfl⟩ := hn
  exact zsum_neighbor hz _

theorem cube_pathLoop_zsum (goal : CubeHex) (obstacles : Finset CubeHex) :
    ∀ (fuel : ℕ) (frontier : List CubeHex) (cf : List (CubeHex × Option CubeHex)),
    (∀ k ∈ keysOf cf, zsum k) → (∀ x ∈ frontier, x ∈ keysOf cf) →
    ∀ cf', cube_pathLoop goal obstacles fuel frontier cf = some cf' →
    ∀ k ∈ keysOf cf', zsum k := by
  intro fuel
  induction fuel with
  | zero =>
      intro frontier cf hz hfs cf' hloop
      cases frontier with
      | nil =>
          simp only [cube_pathLoop, Option.some_inj] at hloop
          subst hloop
          exact hz
      | cons current rest => cases hloop
  | succ fuel ih =>
      intro frontier cf hz hfs cf' hloop
      cases frontier with
      | nil =>
          simp only [cube_pathLoop, Option.some_inj] at hloop
          subst hloop
          exact hz
      | cons current rest =>
          simp only [cube_pathLoop] at hloop
          by_cases hg : current = goal
          · rw [if_pos hg, Option.some_inj] at hloop
            subst hloop
            exact hz
          · rw [if_neg hg] at hloop
            have hcur : current ∈ keysOf cf :=
              hfs current (List.mem_cons_self current rest)
            rw [path_expand_eq] at hloop
            obtain ⟨hnd, hprops⟩ := new_nodes_spec obstacles current cf
            refine ih _ _ ?_ ?_ cf' hloop
            · intro k hk
              rw [keysOf_append, keysOf_map_parent] at hk
              rcases List.mem_append.mp hk with hk | hk
              · exact hz k hk
              · exact zsum_neighbors (hz current hcur) k (hprops k hk).1
            · intro x hx
              rw [keysOf_append, keysOf_map_parent]
              rcases List.mem_append.mp hx with hx | hx
              · exact List.mem_append_left _ (hfs x (List.mem_cons_of_mem _ hx))
              · exact List.mem_append_right _ hx

theorem zsum_path (fuel : ℕ) (start goal : CubeHex) (obstacles : Finset CubeHex)
    (hs : zsum start) (p : List CubeHex)
    (hp : cube_path fuel start goal obstacles = some (some p)) :
    ∀ h ∈ p, zsum h := by
  have hz0 : ∀ k ∈ keysOf [((start, none) : CubeHex × Option CubeHex)], zsum k := by
    intro k hk
    rw [show keysOf [((start, none) : CubeHex × Option CubeHex)] = [start] from rfl,
      List.mem_singleton] at hk
    subst hk
    exact hs
  have hfs0 : ∀ x ∈ [start],
      x ∈ keysOf [((start, none) : CubeHex × Option CubeHex)] := by
    intro x hx
    rw [List.mem_singleton] at hx
    subst hx
    simp [keysOf]
  have hinit : CFGood start obstacles [(start, none)] := by
    constructor
    · rfl
    · simp [keysOf]
    · intro e he
      rw [List.mem_singleton] at he
      subst he
      intro _
      rfl
    · intro i hi hpos
      simp only [List.length_singleton] at hi
      omega
  unfold cube_path at hp
  rcases hloop : cube_pathLoop goal obstacles fuel [start] [(start, none)]
    with _ | cf
  · rw [hloop] at hp
    cases hp
  · rw [hloop] at hp
    dsimp only at hp
    have hzcf : ∀ k ∈ keysOf cf, zsum k :=
      cube_pathLoop_zsum goal obstacles fuel _ _ hz0 hfs0 cf hloop
    have hgood := cube_pathLoop_good goal obstacles start fuel _ _ hinit hfs0 cf hloop
    rcases halook : alook cf goal with _ | v
    · rw [halook] at hp
      cases hp
    · rw [halook] at hp
      dsimp only at hp
      rcases hwalk : cube_path_walk start cf (cf.length + 1) goal [] with _ | q
      · rw [hwalk] at hp
        cases hp
      · rw [hwalk] at hp
        have hq : q = p := by
          simpa using hp
        subst hq
        have hgmem : goal ∈ keysOf cf := mem_keysOf.mpr ⟨v, alook_eq_some halook⟩
        obtain ⟨ch, hch, _, _, _, hsub⟩ :=
          cube_path_walk_spec start obstacles cf hgood (cf.length + 1) goal [] q
            hgmem hwalk
        intro h hh
        rw [hch, List.nil_append, List.mem_reverse] at hh
        exact hzcf h (hsub h hh)

theorem bfs_expand_zsum (obstacles : Finset CubeHex) (md : Option ℕ)
    (current : CubeHex) (dcur : ℕ) (hc : zsum current)
    (st : List CubeHex × List (CubeHex × Option CubeHex) × List (CubeHex × ℕ))
    (h1 : ∀ k ∈ keysOf st.2.2, zsum k) (h2 : ∀ x ∈ st.1, x ∈ keysOf st.2.2) :
    (∀ k ∈ keysOf (bfs_expand obstacles md current dcur st).2.2, zsum k) ∧
    (∀ x ∈ (bfs_expand obstacles md current dcur st).1,
      x ∈ keysOf (bfs_expand obstacles md current dcur st).2.2) := by
  unfold bfs_expand
  have key : ∀ (guard : Bool) (ns : List CubeHex), (∀ n ∈ ns, zsum n) →
      ∀ (st2 : List CubeHex × List (CubeHex × Option CubeHex) × List (CubeHex × ℕ)),
      (∀ k ∈ keysOf st2.2.2, zsum k) → (∀ x ∈ st2.1, x ∈ keysOf st2.2.2) →
      (∀ k ∈ keysOf (ns.foldl
        (fun st2 neighbor =>
          if neighbor ∈ obstacles then st2
          else if neighbor ∈ keysOf st2.2.2 then st2
          else if guard then st2
          else (st2.1 ++ [neighbor], st2.2.1 ++ [(neighbor, some current)],
                st2.2.2 ++ [(neighbor, dcur + 1)])) st2).2.2, zsum k) ∧
      (∀ x ∈ (ns.foldl
        (fun st2 neighbor =>
          if neighbor ∈ obstacles then st2
          else if neighbor ∈ keysOf st2.2.2 then st2
          else if guard then st2
          else (st2.1 ++ [neighbor], st2.2.1 ++ [(neighbor, some current)],
                st2.2.2 ++ [(neighbor, dcur + 1)])) st2).1,
        x ∈ keysOf (ns.foldl
        (fun st2 neighbor =>
          if neighbor ∈ obstacles then st2
          else if neighbor ∈ keysOf st2.2.2 then st2
          else if guard then st2
          else (st2.1 ++ [neighbor], st2.2.1 ++ [(neighbor, some current)],
                st2.2.2 ++ [(neighbor, dcur + 1)])) st2).2.2) := by
    intro guard ns
    induction ns with
    | nil =>
        intro _ st2 g1 g2
        exact ⟨g1, g2⟩
    | cons n t ih =>
        intro hns st2 g1 g2
        rw [List.foldl_cons]
        by_cases hb1 : n ∈ obstacles
        · rw [if_pos hb1]
          exact ih (fun m hm => hns m (List.mem_cons_of_mem _ hm)) st2 g1 g2
        · rw [if_neg hb1]
          by_cases hb2 : n ∈ keysOf st2.2.2
          · rw [if_pos hb2]
            exact ih (fun m hm => hns m (List.mem_cons_of_mem _ hm)) st2 g1 g2
          · rw [if_neg hb2]
            by_cases hb3 : guard = true
            · rw [if_pos hb3]
              exact ih (fun m hm => hns m (List.mem_cons_of_mem _ hm)) st2 g1 g2
            · rw [if_neg hb3]
              refine ih (fun m hm => hns m (List.mem_cons_of_mem _ hm)) _ ?_ ?_
              · intro k hk
                rw [show ((st2.1 ++ [n], st2.2.1 ++ [(n, some current)],
                    st2.2.2 ++ [(n, dcur + 1)]) :
                    List CubeHex × List (CubeHex × Option CubeHex) ×
                      List (CubeHex × ℕ)).2.2 =
                    st2.2.2 ++ [(n, dcur + 1)] from rfl, keysOf_append] at hk
                rcases List.mem_append.mp hk with hk | hk
                · exact g1 k hk
                · rw [show keysOf [(n, dcur + 1)] = [n] from rfl,
                    List.mem_singleton] at hk
                  subst hk
                  exact hns k (List.mem_cons_self _ _)
              · intro x hx
                rw [show ((st2.1 ++ [n], st2.2.1 ++ [(n, some current)],
                    st2.2.2 ++ [(n, dcur + 1)]) :
                    List CubeHex × List (CubeHex × Option CubeHex) ×
                      List (CubeHex × ℕ)).1 = st2.1 ++ [n] from rfl] at hx
                rw [show ((st2.1 ++ [n], st2.2.1 ++ [(n, some current)],
                    st2.2.2 ++ [(n, dcur + 1)]) :
                    List CubeHex × List (CubeHex × Option CubeHex) ×
                      List (CubeHex × ℕ)).2.2 =
                    st2.2.2 ++ [(n, dcur + 1)] from rfl, keysOf_append]
                rcases List.mem_append.mp hx with hx | hx
                · exact List.mem_append_left _ (g2 x hx)
                · rw [List.mem_singleton] at hx
                  subst hx
                  refine List.mem_append_right _ ?_
                  rw [show keysOf [(x, dcur + 1)] = [x] from rfl]
                  exact List.mem_singleton.mpr rfl
  exact key (match md with | some m => decide (m ≤ dcur) | none => false)
    (cube_neighbors current) (zsum_neighbors hc) st h1 h2

theorem cube_bfsLoop_zsum (goals obstacles : Finset CubeHex) (md : Option ℕ) :
    ∀ (fuel : ℕ) (frontier : List CubeHex)
      (cf : List (CubeHex × Option CubeHex)) (dist : List (CubeHex × ℕ))
      (fg : Finset CubeHex),
    (∀ k ∈ keysOf dist, zsum k) → (∀ x ∈ frontier, x ∈ keysOf dist) →
    ∀ dm, cube_bfsLoop goals obstacles md fuel frontier cf dist fg = some dm →
    ∀ k ∈ keysOf dm, zsum k := by
  intro fuel
  induction fuel with
  | zero =>
      intro frontier cf dist fg hz hfs dm hloop
      cases frontier with
      | nil =>
          simp only [cube_bfsLoop, Option.some_inj] at hloop
          subst hloop
          exact hz
      | cons current rest => cases hloop
  | succ fuel ih =>
      intro frontier cf dist fg hz hfs dm hloop
      cases frontier with
      | nil =>
          simp only [cube_bfsLoop, Option.some_inj] at hloop
          subst hloop
          exact hz
      | cons current rest =>
          simp only [cube_bfsLoop] at hloop
          by_cases hbreak : current ∈ goals ∧
              (if current ∈ goals then insert current fg else fg).card = goals.card
          · rw [if_pos hbreak, Option.some_inj] at hloop
            subst hloop
            exact hz
          · rw [if_neg hbreak] at hloop
            rcases hd : alook dist current with _ | dcur
            · rw [hd] at hloop
              cases hloop
            · rw [hd] at hloop
              dsimp only at hloop
              have hcur : current ∈ keysOf dist :=
                hfs current (List.mem_cons_self current rest)
              obtain ⟨g1, g2⟩ := bfs_expand_zsum obstacles md current dcur
                (hz current hcur) (rest, cf, dist) hz
                (fun x hx => hfs x (List.mem_cons_of_mem _ hx))
              exact ih _ _ _ _ g1 g2 dm hloop

/-- Claim C8: every cube-space operation preserves the zero-sum invariant
`q + r + s = 0`: `cube_add`, `cube_subtract`, `cube_scale`,
`cube_rotate_left`, `cube_rotate_right`, `cube_neighbor`, every hex of a
ring or a spiral, every hex of a rasterized line, every hex of a returned
shortest path, every key of a returned BFS distance map, and `cube_round`
for arbitrary fractional input. -/
theorem zsum_preservation :
    (∀ a b : CubeHex, zsum a → zsum b → zsum (cube_add a b)) ∧
    (∀ a b : CubeHex, zsum a → zsum b → zsum (cube_subtract a b)) ∧
    (∀ (h : CubeHex) (k : ℤ), zsum h → zsum (cube_scale h k)) ∧
    (∀ h : CubeHex, zsum h → zsum (cube_rotate_left h)) ∧
    (∀ h : CubeHex, zsum h → zsum (cube_rotate_right h)) ∧
    (∀ (h : CubeHex) (d : ℤ), zsum h → zsum (cube_neighbor h d)) ∧
    (∀ (c : CubeHex) (r : ℕ), zsum c → ∀ h ∈ cube_ring c r, zsum h) ∧
    (∀ (c : CubeHex) (r : ℕ), zsum c → ∀ h ∈ cube_spiral c r, zsum h) ∧
    (∀ (a b : CubeHex) (l : List CubeHex), cube_line a b = some l →
      ∀ h ∈ l, zsum h) ∧
    (∀ (fuel : ℕ) (s g : CubeHex) (obs : Finset CubeHex) (p : List CubeHex),
      zsum s → cube_path fuel s g obs = some (some p) → ∀ h ∈ p, zsum h) ∧
    (∀ (fuel : ℕ) (s : CubeHex) (goals obs : Finset CubeHex) (md : Option ℕ)
      (dm : List (CubeHex × ℕ)),
      zsum s → cube_bfs fuel s goals obs md = some dm → ∀ e ∈ dm, zsum e.1) ∧
    (∀ frac : FracHex, zsum (cube_round frac)) := by
  refine ⟨fun a b ha hb => zsum_add ha hb, ?_, fun h k hz => zsum_scale hz k,
    ?_, ?_, fun h d hz => zsum_neighbor hz d, fun c r hc => zsum_ring hc r,
    fun c r hc => zsum_spiral hc r, zsum_line,
    fun fuel s g obs p hs hp => zsum_path fuel s g obs hs p hp, ?_,
    fun frac => cube_round_zsum frac⟩
  · intro a b ha hb
    unfold zsum cube_subtract at *
    dsimp only at *
    omega
  · intro h hz
    unfold zsum cube_rotate_left at *
    dsimp only at *
    omega
  · intro h hz
    unfold zsum cube_rotate_right at *
    dsimp only at *
    omega
  · intro fuel s goals obs md dm hs hdm e he
    have hz0 : ∀ k ∈ keysOf [((s, 0) : CubeHex × ℕ)], zsum k := by
      intro k hk
      rw [show keysOf [((s, 0) : CubeHex × ℕ)] = [s] from rfl,
        List.mem_singleton] at hk
      subst hk
      exact hs
    have hfs0 : ∀ x ∈ [s], x ∈ keysOf [((s, 0) : CubeHex × ℕ)] := by
      intro x hx
      rw [List.mem_singleton] at hx
      subst hx
      simp [keysOf]
    have := cube_bfsLoop_zsum goals obs md fuel [s] [(s, none)] [(s, 0)] ∅
      hz0 hfs0 dm hdm
    exact this e.1 (List.mem_map_of_mem Prod.fst he)

/-- Witness for C8 at concrete inputs: addition of two zero-sum hexes, the
hexes of a concrete shortest path, and the keys of a concrete BFS distance
map are all zero-sum. -/
theorem zsum_preservation_witness :
    zsum (cube_add (3, -5, 2) (1, 0, -1)) ∧
    (∀ h ∈ ([(0, 0, 0), (1, 0, -1), (2, 0, -2)] : List CubeHex), zsum h) ∧
    ∀ e ∈ ([((0, 0, 0), 0), ((1, 0, -1), 1), ((1, -1, 0), 1), ((0, -1, 1), 1),
            ((-1, 0, 1), 1), ((-1, 1, 0), 1), ((0, 1, -1), 1)] :
           List (CubeHex × ℕ)), zsum e.1 :=
  ⟨zsum_preservation.1 (3, -5, 2) (1, 0, -1) (by decide) (by decide),
   zsum_preservation.2.2.2.2.2.2.2.2.2.1 10 (0, 0, 0) (2, 0, -2) ∅
     [(0, 0, 0), (1, 0, -1), (2, 0, -2)] (by decide) (by decide),
   zsum_preservation.2.2.2.2.2.2.2.2.2.2.1 5 (0, 0, 0) {(1, 0, -1)} ∅ none
     [((0, 0, 0), 0), ((1, 0, -1), 1), ((1, -1, 0), 1), ((0, -1, 1), 1),
      ((-1, 0, 1), 1), ((-1, 1, 0), 1), ((0, 1, -1), 1)] (by decide) (by decide)⟩

theorem cube_distance_comm (a b : CubeHex) : cube_distance a b = cube_distance b a := by
  unfold cube_distance
  omega

theorem cube_distance_self (a : CubeHex) : cube_distance a a = 0 := by
  unfold cube_distance
  omega

theorem cube_distance_neighbor_le (s x n : CubeHex) (hn : n ∈ cube_neighbors x) :
    cube_distance s n ≤ cube_distance s x + 1 := by
  rw [cube_neighbors_eq] at hn
  unfold cube_distance cube_add at *
  simp only [List.mem_cons, List.mem_singleton, List.not_mem_nil, or_false] at hn
  rcases hn with rfl | rfl | rfl | rfl | rfl | rfl <;> dsimp only <;> omega

theorem cube_distance_decr (x y : CubeHex) (hx : zsum x) (hy : zsum y)
    (hne : x ≠ y) :
    ∃ v ∈ cube_neighbors x, cube_distance v y + 1 = cube_distance x y := by
  have hxy : x.1 ≠ y.1 ∨ x.2.1 ≠ y.2.1 ∨ x.2.2 ≠ y.2.2 := by
    by_contra hcon
    push_neg at hcon
    exact hne (Prod.ext hcon.1 (Prod.ext hcon.2.1 hcon.2.2))
  unfold zsum at hx hy
  rcases lt_trichotomy x.1 y.1 with hq | hq | hq
  · rcases le_or_lt x.2.1 y.2.1 with hr | hr
    · refine ⟨cube_add x (1, 0, -1), ?_, ?_⟩
      · rw [cube_neighbors_eq]
        simp
      · unfold cube_distance cube_add
        dsimp only
        omega
    · refine ⟨cube_add x (1, -1, 0), ?_, ?_⟩
      · rw [cube_neighbors_eq]
        simp
      · unfold cube_distance cube_add
        dsimp only
        omega
  · rcases lt_trichotomy x.2.1 y.2.1 with hr | hr | hr
    · refine ⟨cube_add x (0, 1, -1), ?_, ?_⟩
      · rw [cube_neighbors_eq]
        simp
      · unfold cube_distance cube_add
        dsimp only
        omega
    · exfalso
      rcases hxy with h | h | h
      · exact h hq
      · exact h hr
      · exact h (by omega)
    · refine ⟨cube_add x (0, -1, 1), ?_, ?_⟩
      · rw [cube_neighbors_eq]
        simp
      · unfold cube_distance cube_add
        dsimp only
        omega
  · rcases le_or_lt y.2.1 x.2.1 with hr | hr
    · refine ⟨cube_add x (-1, 0, 1), ?_, ?_⟩
      · rw [cube_neighbors_eq]
        simp
      · unfold cube_distance cube_add
        dsimp only
        omega
    · refine ⟨cube_add x (-1, 1, 0), ?_, ?_⟩
      · rw [cube_neighbors_eq]
        simp
      · unfold cube_distance cube_add
        dsimp only
        omega

theorem neighbor_symm {x y : CubeHex} (h : y ∈ cube_neighbors x) :
    x ∈ cube_neighbors y := by
  obtain ⟨q, r, s⟩ := x
  rw [cube_neighbors_eq] at h
  simp only [List.mem_cons, List.mem_singleton, List.not_mem_nil, or_false] at h
  rcases h with rfl | rfl | rfl | rfl | rfl | rfl <;>
    (rw [cube_neighbors_eq]
     simp only [List.mem_cons, List.mem_singleton, cube_add, Prod.mk.injEq]) <;>
    omega

theorem alook_mem_nodup {β : Type*} {l : List (CubeHex × β)} {k : CubeHex} {v : β}
    (hnd : (keysOf l).Nodup) (hmem : (k, v) ∈ l) : alook l k = some v := by
  induction l with
  | nil => cases hmem
  | cons e t ih =>
      rw [show keysOf (e :: t) = e.1 :: keysOf t from rfl, List.nodup_cons] at hnd
      rcases List.mem_cons.mp hmem with rfl | hm
      · unfold alook
        rw [List.find?_cons_of_pos _ (by simp)]
        rfl
      · have hek : e.1 ≠ k := by
          intro hcon
          exact hnd.1 (hcon ▸ mem_keysOf.mpr ⟨v, hm⟩)
        unfold alook
        rw [List.find?_cons_of_neg _ (by simp [hek])]
        exact ih hnd.2 hm

/-- Invariant of the `cube_path` search loop on an obstacle-free grid: the
predecessor map `cf` lists the discovered hexes (no duplicates, all zero-sum,
parents one step closer to `s`), the frontier splits into a level-`k` prefix
and a level-`k+1` suffix, every hex at distance at most `k` is discovered,
every expanded hex has all its neighbors discovered, and the goal, once
discovered, stays in the frontier until it is dequeued. -/
structure PInv (s goal : CubeHex) (k : ℕ) (frontier : List CubeHex)
    (cf : List (CubeHex × Option CubeHex)) : Prop where
  keys_nodup : (keysOf cf).Nodup
  s_mem : s ∈ keysOf cf
  keys_zsum : ∀ u ∈ keysOf cf, zsum u
  fr_sub : ∀ x ∈ frontier, x ∈ keysOf cf
  fr_nodup : frontier.Nodup
  shape : ∃ A B, frontier = A ++ B ∧ (A = [] → B = []) ∧
    (∀ u ∈ A, cube_distance s u = k) ∧ ∀ u ∈ B, cube_distance s u = k + 1
  j4 : ∀ u : CubeHex, zsum u → cube_distance s u ≤ k → u ∈ keysOf cf
  closure : ∀ u ∈ keysOf cf, u ∉ frontier → ∀ n ∈ cube_neighbors u, n ∈ keysOf cf
  gmem : goal ∈ keysOf cf → goal ∈ frontier
  j2 : ∀ e ∈ cf, ∀ par : CubeHex, e.2 = some par →
    cube_distance s e.1 = cube_distance s par + 1 ∧ par ∈ keysOf cf
  parent_some : ∀ e ∈ cf, e.1 ≠ s → ∃ par : CubeHex, e.2 = some par

theorem PInv_init (s goal : CubeHex) (hzs : zsum s) :
    PInv s goal 0 [s] [(s, none)] := by
  have hkeys : keysOf [((s, none) : CubeHex × Option CubeHex)] = [s] := rfl
  constructor
  · rw [hkeys]
    exact List.nodup_singleton s
  · rw [hkeys]
    exact List.mem_singleton.mpr rfl
  · intro u hu
    rw [hkeys, List.mem_singleton] at hu
    subst hu
    exact hzs
  · intro x hx
    rw [hkeys]
    exact hx
  · exact List.nodup_singleton s
  · refine ⟨[s], [], rfl, fun h => absurd h (by simp), ?_, by simp⟩
    intro u hu
    rw [List.mem_singleton] at hu
    rw [hu]
    exact cube_distance_self s
  · intro u hu hd
    rw [hkeys, List.mem_singleton]
    have : cube_distance s u = 0 := Nat.le_zero.mp hd
    exact ((cube_distance_eq_zero_iff s u hzs hu).mp this).symm
  · intro u hu hnf
    rw [hkeys, List.mem_singleton] at hu
    subst hu
    exact absurd (List.mem_singleton.mpr rfl) hnf
  · intro hg
    rw [hkeys] at hg
    exact hg
  · intro e he par hpar
    rw [List.mem_singleton] at he
    subst he
    cases hpar
  · intro e he hne
    rw [List.mem_singleton] at he
    subst he
    exact absurd rfl hne

theorem PInv_step (s goal : CubeHex) (hzs : zsum s) (k : ℕ)
    (current : CubeHex) (rest : List CubeHex)
    (cf : List (CubeHex × Option CubeHex))
    (inv : PInv s goal k (current :: rest) cf) (hng : current ≠ goal) :
    ∃ k', (k' = k ∨ k' = k + 1) ∧
      PInv s goal k' (path_expand ∅ current (rest, cf)).1
        (path_expand ∅ current (rest, cf)).2 := by
  rw [path_expand_eq]
  dsimp only
  obtain ⟨hnew_nodup, hnew_props⟩ := new_nodes_spec ∅ current cf
  have hcur_mem : current ∈ keysOf cf := inv.fr_sub current (List.mem_cons_self _ _)
  have hcur_zsum : zsum current := inv.keys_zsum current hcur_mem
  obtain ⟨A, B, hAB, hABne, hAlvl, hBlvl⟩ := inv.shape
  have hAne : A ≠ [] := by
    intro hA
    rw [hA, hABne hA] at hAB
    cases hAB
  obtain ⟨a0, A', rfl⟩ := List.exists_cons_of_ne_nil hAne
  rw [List.cons_append] at hAB
  injection hAB with h1 hrest
  subst h1
  have hcur_lvl : cube_distance s current = k :=
    hAlvl current (List.mem_cons_self _ _)
  have hnewD : ∀ n ∈ (cube_neighbors current).filter
      (fun n => !decide (n ∈ (∅ : Finset CubeHex)) && !decide (n ∈ keysOf cf)),
      cube_distance s n = k + 1 ∧ zsum n := by
    intro n hn
    obtain ⟨hnb, _, hnk⟩ := hnew_props n hn
    have hnz : zsum n := zsum_neighbors hcur_zsum n hnb
    have hle : cube_distance s n ≤ k + 1 := by
      have := cube_distance_neighbor_le s current n hnb
      omega
    have hgt : ¬ cube_distance s n ≤ k := fun hcon => hnk (inv.j4 n hnz hcon)
    exact ⟨by omega, hnz⟩
  have hkeys' : keysOf (cf ++ ((cube_neighbors current).filter
      (fun n => !decide (n ∈ (∅ : Finset CubeHex)) && !decide (n ∈ keysOf cf))).map
        fun n => (n, some current)) =
      keysOf cf ++ (cube_neighbors current).filter
        (fun n => !decide (n ∈ (∅ : Finset CubeHex)) && !decide (n ∈ keysOf cf)) := by
    rw [keysOf_append, keysOf_map_parent]
  -- common facts, phrased over the new frontier rest ++ new and keys
  have hrest_nodup : rest.Nodup := (List.nodup_cons.mp inv.fr_nodup).2
  have hcur_rest : current ∉ rest := (List.nodup_cons.mp inv.fr_nodup).1
  have hnbr_keys : ∀ n ∈ cube_neighbors current,
      n ∈ keysOf cf ++ (cube_neighbors current).filter
        (fun n => !decide (n ∈ (∅ : Finset CubeHex)) && !decide (n ∈ keysOf cf)) := by
    intro n hnb
    by_cases hk : n ∈ keysOf cf
    · exact List.mem_append_left _ hk
    · refine List.mem_append_right _ ?_
      rw [List.mem_filter]
      refine ⟨hnb, ?_⟩
      simp [hk]
  have keys_nodup' : (keysOf cf ++ (cube_neighbors current).filter
      (fun n => !decide (n ∈ (∅ : Finset CubeHex)) && !decide (n ∈ keysOf cf))).Nodup := by
    rw [List.nodup_append]
    exact ⟨inv.keys_nodup, hnew_nodup, fun a ha hb => (hnew_props a hb).2.2 ha⟩
  have s_mem' : s ∈ keysOf cf ++ (cube_neighbors current).filter
      (fun n => !decide (n ∈ (∅ : Finset CubeHex)) && !decide (n ∈ keysOf cf)) :=
    List.mem_append_left _ inv.s_mem
  have keys_zsum' : ∀ u ∈ keysOf cf ++ (cube_neighbors current).filter
      (fun n => !decide (n ∈ (∅ : Finset CubeHex)) && !decide (n ∈ keysOf cf)),
      zsum u := by
    intro u hu
    rcases List.mem_append.mp hu with hu | hu
    · exact inv.keys_zsum u hu
    · exact (hnewD u hu).2
  have fr_sub' : ∀ x ∈ rest ++ (cube_neighbors current).filter
      (fun n => !decide (n ∈ (∅ : Finset CubeHex)) && !decide (n ∈ keysOf cf)),
      x ∈ keysOf cf ++ (cube_neighbors current).filter
        (fun n => !decide (n ∈ (∅ : Finset CubeHex)) && !decide (n ∈ keysOf cf)) := by
    intro x hx
    rcases List.mem_append.mp hx with hx | hx
    · exact List.mem_append_left _ (inv.fr_sub x (List.mem_cons_of_mem _ hx))
    · exact List.mem_append_right _ hx
  have fr_nodup' : (rest ++ (cube_neighbors current).filter
      (fun n => !decide (n ∈ (∅ : Finset CubeHex)) && !decide (n ∈ keysOf cf))).Nodup := by
    rw [List.nodup_append]
    refine ⟨hrest_nodup, hnew_nodup, fun a ha hb => ?_⟩
    exact (hnew_props a hb).2.2 (inv.fr_sub a (List.mem_cons_of_mem _ ha))
  have closure' : ∀ u ∈ keysOf cf ++ (cube_neighbors current).filter
      (fun n => !decide (n ∈ (∅ : Finset CubeHex)) && !decide (n ∈ keysOf cf)),
      u ∉ rest ++ (cube_neighbors current).filter
        (fun n => !decide (n ∈ (∅ : Finset CubeHex)) && !decide (n ∈ keysOf cf)) →
      ∀ n ∈ cube_neighbors u,
        n ∈ keysOf cf ++ (cube_neighbors current).filter
          (fun n => !decide (n ∈ (∅ : Finset CubeHex)) && !decide (n ∈ keysOf cf)) := by
    intro u hu hnf n hnb
    rcases List.mem_append.mp hu with hu | hu
    · by_cases hc : u = current
      · subst hc
        exact hnbr_keys n hnb
      · have hunf : u ∉ current :: rest := by
          intro hcon
          rcases List.mem_cons.mp hcon with hcon | hcon
          · exact hc hcon
          · exact hnf (List.mem_append_left _ hcon)
        exact List.mem_append_left _ (inv.closure u hu hunf n hnb)
    · exact absurd (List.mem_append_right _ hu) hnf
  have gmem' : goal ∈ keysOf cf ++ (cube_neighbors current).filter
      (fun n => !decide (n ∈ (∅ : Finset CubeHex)) && !decide (n ∈ keysOf cf)) →
      goal ∈ rest ++ (cube_neighbors current).filter
        (fun n => !decide (n ∈ (∅ : Finset CubeHex)) && !decide (n ∈ keysOf cf)) := by
    intro hg
    rcases List.mem_append.mp hg with hg | hg
    · have := inv.gmem hg
      rcases List.mem_cons.mp this with hcon | hcon
      · exact absurd hcon.symm hng
      · exact List.mem_append_left _ hcon
    · exact List.mem_append_right _ hg
  have j2' : ∀ e ∈ cf ++ ((cube_neighbors current).filter
      (fun n => !decide (n ∈ (∅ : Finset CubeHex)) && !decide (n ∈ keysOf cf))).map
        (fun n => (n, some current)),
      ∀ par : CubeHex, e.2 = some par →
      cube_distance s e.1 = cube_distance s par + 1 ∧
        par ∈ keysOf cf ++ (cube_neighbors current).filter
          (fun n => !decide (n ∈ (∅ : Finset CubeHex)) && !decide (n ∈ keysOf cf)) := by
    intro e he par hpar
    rcases List.mem_append.mp he with he | he
    · obtain ⟨hd, hm⟩ := inv.j2 e he par hpar
      exact ⟨hd, List.mem_append_left _ hm⟩
    · rw [List.mem_map] at he
      obtain ⟨n, hn, rfl⟩ := he
      rw [show ((n, some current) : CubeHex × Option CubeHex).2 = some current from rfl,
        Option.some_inj] at hpar
      subst hpar
      refine ⟨?_, List.mem_append_left _ hcur_mem⟩
      rw [show ((n, some current) : CubeHex × Option CubeHex).1 = n from rfl]
      rw [(hnewD n hn).1, hcur_lvl]
  have parent_some' : ∀ e ∈ cf ++ ((cube_neighbors current).filter
      (fun n => !decide (n ∈ (∅ : Finset CubeHex)) && !decide (n ∈ keysOf cf))).map
        (fun n => (n, some current)),
      e.1 ≠ s → ∃ par : CubeHex, e.2 = some par := by
    intro e he hne
    rcases List.mem_append.mp he with he | he
    · exact inv.parent_some e he hne
    · rw [List.mem_map] at he
      obtain ⟨n, hn, rfl⟩ := he
      exact ⟨current, rfl⟩
  by_cases hA' : A' = []
  · -- the dequeued hex was the last of level k: advance to level k + 1
    subst hA'
    rw [List.nil_append] at hrest
    subst hrest
    refine ⟨k + 1, Or.inr rfl, ?_⟩
    refine ⟨?_, ?_, ?_, ?_, fr_nodup', ?_, ?_, ?_, ?_, ?_, parent_some'⟩
    · rw [hkeys']
      exact keys_nodup'
    · rw [hkeys']
      exact s_mem'
    · rw [hkeys']
      exact keys_zsum'
    · rw [hkeys']
      exact fr_sub'
    · refine ⟨rest ++ (cube_neighbors current).filter
        (fun n => !decide (n ∈ (∅ : Finset CubeHex)) && !decide (n ∈ keysOf cf)),
        [], by rw [List.append_nil], fun _ => rfl, ?_, by simp⟩
      intro u hu
      rcases List.mem_append.mp hu with hu | hu
      · exact hBlvl u hu
      · exact (hnewD u hu).1
    · rw [hkeys']
      intro u hu hd
      rcases Nat.lt_or_ge (cube_distance s u) (k + 1) with hlt | hge
      · exact List.mem_append_left _ (inv.j4 u hu (by omega))
      · have hdk : cube_distance s u = k + 1 := by omega
        have hus : u ≠ s := by
          intro hcon
          subst hcon
          rw [cube_distance_self] at hdk
          cases hdk
        obtain ⟨v, hvnb, hvd⟩ := cube_distance_decr u s hu hzs hus
        rw [cube_distance_comm v s, cube_distance_comm u s, hdk] at hvd
        have hvz : zsum v := zsum_neighbors hu v hvnb
        have hvk : cube_distance s v = k := by omega
        have hvmem : v ∈ keysOf cf := inv.j4 v hvz (by omega)
        have hunb : u ∈ cube_neighbors v := neighbor_symm hvnb
        by_cases hvf : v ∈ current :: rest
        · rcases List.mem_cons.mp hvf with hvc | hvr
          · subst hvc
            exact hnbr_keys u hunb
          · have : cube_distance s v = k + 1 := hBlvl v hvr
            omega
        · exact List.mem_append_left _ (inv.closure v hvmem hvf u hunb)
    · rw [hkeys']
      exact closure'
    · rw [hkeys']
      exact gmem'
    · rw [hkeys']
      exact j2'
  · -- more level-k hexes remain in the frontier: the level stays k
    subst hrest
    refine ⟨k, Or.inl rfl, ?_⟩
    refine ⟨?_, ?_, ?_, ?_, fr_nodup', ?_, ?_, ?_, ?_, ?_, parent_some'⟩
    · rw [hkeys']
      exact keys_nodup'
    · rw [hkeys']
      exact s_mem'
    · rw [hkeys']
      exact keys_zsum'
    · rw [hkeys']
      exact fr_sub'
    · refine ⟨A', B ++ (cube_neighbors current).filter
        (fun n => !decide (n ∈ (∅ : Finset CubeHex)) && !decide (n ∈ keysOf cf)),
        List.append_assoc A' B _, fun h => absurd h hA', ?_, ?_⟩
      · intro u hu
        exact hAlvl u (List.mem_cons_of_mem _ hu)
      · intro u hu
        rcases List.mem_append.mp hu with hu | hu
        · exact hBlvl u hu
        · exact (hnewD u hu).1
    · rw [hkeys']
      intro u hu hd
      exact List.mem_append_left _ (inv.j4 u hu hd)
    · rw [hkeys']
      exact closure'
    · rw [hkeys']
      exact gmem'
    · rw [hkeys']
      exact j2'

theorem keys_closed_all (s : CubeHex) (hzs : zsum s) (K : List CubeHex)
    (hs : s ∈ K) (hcl : ∀ u ∈ K, ∀ n ∈ cube_neighbors u, n ∈ K) :
    ∀ (d : ℕ) (u : CubeHex), zsum u → cube_distance s u = d → u ∈ K := by
  intro d
  induction d with
  | zero =>
      intro u hu hd
      have : s = u := (cube_distance_eq_zero_iff s u hzs hu).mp hd
      exact this ▸ hs
  | succ d ih =>
      intro u hu hd
      have hus : u ≠ s := by
        intro hcon
        rw [hcon, cube_distance_self] at hd
        cases hd
      obtain ⟨v, hvnb, hvd⟩ := cube_distance_decr u s hu hzs hus
      rw [cube_distance_comm v s, cube_distance_comm u s, hd] at hvd
      have hvz : zsum v := zsum_neighbors hu v hvnb
      have hvK : v ∈ K := ih v hvz (by omega)
      exact hcl v hvK u (neighbor_symm hvnb)

theorem chain_card (s : CubeHex) (cf : List (CubeHex × Option CubeHex))
    (hps : ∀ e ∈ cf, e.1 ≠ s → ∃ par : CubeHex, e.2 = some par)
    (hj2 : ∀ e ∈ cf, ∀ par : CubeHex, e.2 = some par →
      cube_distance s e.1 = cube_distance s par + 1 ∧ par ∈ keysOf cf) :
    ∀ (d : ℕ) (v : CubeHex), v ∈ keysOf cf → cube_distance s v = d →
    d + 1 ≤ ((keysOf cf).toFinset.filter fun u => cube_distance s u ≤ d).card := by
  intro d
  induction d with
  | zero =>
      intro v hv hd
      have hmem : v ∈ (keysOf cf).toFinset.filter fun u => cube_distance s u ≤ 0 := by
        rw [Finset.mem_filter, List.mem_toFinset]
        exact ⟨hv, by omega⟩
      have := Finset.card_pos.mpr ⟨v, hmem⟩
      omega
  | succ d ih =>
      intro v hv hd
      obtain ⟨w, hw⟩ := mem_keysOf.mp hv
      have hvs : v ≠ s := by
        intro hcon
        rw [hcon, cube_distance_self] at hd
        cases hd
      obtain ⟨par, hpar⟩ := hps (v, w) hw hvs
      obtain ⟨hdpar, hparmem⟩ := hj2 (v, w) hw par hpar
      have hdp : cube_distance s par = d := by
        rw [show ((v, w) : CubeHex × Option CubeHex).1 = v from rfl, hd] at hdpar
        omega
      have hsub := ih par hparmem hdp
      have hvnot : v ∉ (keysOf cf).toFinset.filter fun u => cube_distance s u ≤ d := by
        rw [Finset.mem_filter]
        rintro ⟨_, hcon⟩
        omega
      have hins : insert v ((keysOf cf).toFinset.filter fun u => cube_distance s u ≤ d) ⊆
          (keysOf cf).toFinset.filter fun u => cube_distance s u ≤ d + 1 := by
        intro x hx
        rcases Finset.mem_insert.mp hx with rfl | hx
        · rw [Finset.mem_filter, List.mem_toFinset]
          exact ⟨hv, by omega⟩
        · rw [Finset.mem_filter] at hx ⊢
          exact ⟨hx.1, by omega⟩
      have hcard := Finset.card_le_card hins
      rw [Finset.card_insert_of_not_mem hvnot] at hcard
      omega

theorem walk_len (s : CubeHex) (cf : List (CubeHex × Option CubeHex))
    (hnd : (keysOf cf).Nodup)
    (hps : ∀ e ∈ cf, e.1 ≠ s → ∃ par : CubeHex, e.2 = some par)
    (hj2 : ∀ e ∈ cf, ∀ par : CubeHex, e.2 = some par →
      cube_distance s e.1 = cube_distance s par + 1 ∧ par ∈ keysOf cf) :
    ∀ (fuel : ℕ) (v : CubeHex) (acc : List CubeHex), v ∈ keysOf cf →
    cube_distance s v < fuel →
    ∃ p, cube_path_walk s cf fuel v acc = some p ∧
      p.length = acc.length + cube_distance s v + 1 := by
  intro fuel
  induction fuel with
  | zero =>
      intro v acc hv hlt
      exact absurd hlt (Nat.not_lt_zero _)
  | succ fuel ih =>
      intro v acc hv hlt
      rw [cube_path_walk]
      by_cases hvs : v = s
      · rw [if_pos hvs]
        refine ⟨(acc ++ [s]).reverse, rfl, ?_⟩
        rw [List.length_reverse, List.length_append, hvs, cube_distance_self]
        simp
      · rw [if_neg hvs]
        obtain ⟨w, hw⟩ := mem_keysOf.mp hv
        obtain ⟨par, hpar⟩ := hps (v, w) hw hvs
        rw [show ((v, w) : CubeHex × Option CubeHex).2 = w from rfl] at hpar
        subst hpar
        have halook : alook cf v = some (some par) := alook_mem_nodup hnd hw
        rw [halook]
        obtain ⟨hdpar, hparmem⟩ := hj2 (v, some par) hw par rfl
        rw [show ((v, some par) : CubeHex × Option CubeHex).1 = v from rfl] at hdpar
        have hdp : cube_distance s par < fuel := by omega
        obtain ⟨p, hp, hlen⟩ := ih par (acc ++ [v]) hparmem hdp
        refine ⟨p, hp, ?_⟩
        rw [hlen, List.length_append]
        simp only [List.length_singleton]
        omega

theorem cube_pathLoop_PInv (s goal : CubeHex) (hzs : zsum s) :
    ∀ (fuel k : ℕ) (frontier : List CubeHex)
      (cf : List (CubeHex × Option CubeHex)),
    PInv s goal k frontier cf →
    ∀ cf', cube_pathLoop goal ∅ fuel frontier cf = some cf' →
    ∃ (k' : ℕ) (frontier' : List CubeHex), PInv s goal k' frontier' cf' := by
  intro fuel
  induction fuel with
  | zero =>
      intro k frontier cf inv cf' hloop
      cases frontier with
      | nil =>
          simp only [cube_pathLoop, Option.some_inj] at hloop
          subst hloop
          exact ⟨k, [], inv⟩
      | cons current rest => cases hloop
  | succ fuel ih =>
      intro k frontier cf inv cf' hloop
      cases frontier with
      | nil =>
          simp only [cube_pathLoop, Option.some_inj] at hloop
          subst hloop
          exact ⟨k, [], inv⟩
      | cons current rest =>
          simp only [cube_pathLoop] at hloop
          by_cases hg : current = goal
          · rw [if_pos hg, Option.some_inj] at hloop
            subst hloop
            exact ⟨k, current :: rest, inv⟩
          · rw [if_neg hg] at hloop
            obtain ⟨k', _, inv'⟩ := PInv_step s goal hzs k current rest cf inv hg
            exact ih k' _ _ inv' cf' hloop

/-- A finite box of cube hexes guaranteed to contain every zero-sum hex
within distance `R` of `s` (used only to bound the search loop). -/
def ballAround (s : CubeHex) (R : ℕ) : Finset CubeHex :=
  (Finset.Icc (-(R : ℤ)) R ×ˢ Finset.Icc (-(R : ℤ)) R).image
    fun p => (s.1 + p.1, s.2.1 + p.2, s.2.2 - p.1 - p.2)

theorem ballAround_mem (s u : CubeHex) (R : ℕ) (hzs : zsum s) (hzu : zsum u)
    (hd : cube_distance s u ≤ R) : u ∈ ballAround s R := by
  unfold ballAround
  rw [Finset.mem_image]
  refine ⟨(u.1 - s.1, u.2.1 - s.2.1), ?_, ?_⟩
  · rw [Finset.mem_product, Finset.mem_Icc, Finset.mem_Icc]
    unfold cube_distance at hd
    unfold zsum at hzs hzu
    omega
  · unfold zsum at hzs hzu
    obtain ⟨q, r, t⟩ := u
    simp only [Prod.mk.injEq]
    refine ⟨by omega, by omega, ?_⟩
    dsimp only at hzs hzu ⊢
    omega

theorem cube_pathLoop_term (s goal : CubeHex) (hzs : zsum s) (hzg : zsum goal) :
    ∀ (fuel k : ℕ) (frontier : List CubeHex)
      (cf : List (CubeHex × Option CubeHex)),
    PInv s goal k frontier cf →
    (ballAround s (cube_distance s goal)).card -
      ((ballAround s (cube_distance s goal)).filter
        fun u => u ∈ keysOf cf ∧ u ∉ frontier).card < fuel →
    ∃ cf', cube_pathLoop goal ∅ fuel frontier cf = some cf' ∧
      goal ∈ keysOf cf' := by
  intro fuel
  induction fuel with
  | zero =>
      intro k frontier cf inv hm
      exact absurd hm (Nat.not_lt_zero _)
  | succ fuel ih =>
      intro k frontier cf inv hm
      cases frontier with
      | nil =>
          exfalso
          have hclosed : ∀ u ∈ keysOf cf, ∀ n ∈ cube_neighbors u, n ∈ keysOf cf := by
            intro u hu
            exact inv.closure u hu (List.not_mem_nil u)
          have hgoal : goal ∈ keysOf cf :=
            keys_closed_all s hzs (keysOf cf) inv.s_mem hclosed
              (cube_distance s goal) goal hzg rfl
          exact (List.not_mem_nil goal) (inv.gmem hgoal)
      | cons current rest =>
          simp only [cube_pathLoop]
          by_cases hg : current = goal
          · rw [if_pos hg]
            refine ⟨cf, rfl, ?_⟩
            rw [← hg]
            exact inv.fr_sub current (List.mem_cons_self _ _)
          · rw [if_neg hg]
            obtain ⟨k', _, inv'⟩ := PInv_step s goal hzs k current rest cf inv hg
            rw [path_expand_eq] at inv' ⊢
            dsimp only at inv' ⊢
            -- facts for the measure decrease
            obtain ⟨hnew_nodup, hnew_props⟩ := new_nodes_spec ∅ current cf
            have hcur_mem : current ∈ keysOf cf :=
              inv.fr_sub current (List.mem_cons_self _ _)
            obtain ⟨A, B, hAB, hABne, hAlvl, hBlvl⟩ := inv.shape
            have hAne : A ≠ [] := by
              intro hA
              rw [hA, hABne hA] at hAB
              cases hAB
            obtain ⟨a0, A', rfl⟩ := List.exists_cons_of_ne_nil hAne
            rw [List.cons_append] at hAB
            injection hAB with h1 hrest
            subst h1
            have hcur_lvl : cube_distance s current = k :=
              hAlvl current (List.mem_cons_self _ _)
            have hkD : k ≤ cube_distance s goal := by
              by_contra hcon
              push_neg at hcon
              have hgk : goal ∈ keysOf cf := inv.j4 goal hzg (by omega)
              have hgf := inv.gmem hgk
              rw [hrest] at hgf
              rcases List.mem_cons.mp hgf with hcon2 | hcon2
              · exact hg hcon2.symm
              · rcases List.mem_append.mp hcon2 with hcon3 | hcon3
                · have := hAlvl goal (List.mem_cons_of_mem _ hcon3)
                  omega
                · have := hBlvl goal hcon3
                  omega
            have hkeys' : keysOf (cf ++ ((cube_neighbors current).filter
                (fun n => !decide (n ∈ (∅ : Finset CubeHex)) &&
                  !decide (n ∈ keysOf cf))).map fun n => (n, some current)) =
                keysOf cf ++ (cube_neighbors current).filter
                  (fun n => !decide (n ∈ (∅ : Finset CubeHex)) &&
                    !decide (n ∈ keysOf cf)) := by
              rw [keysOf_append, keysOf_map_parent]
            have hcur_rest : current ∉ rest := (List.nodup_cons.mp inv.fr_nodup).1
            -- the dequeued hex joins the expanded set inside the ball
            have hcur_ball : current ∈ ballAround s (cube_distance s goal) :=
              ballAround_mem s current (cube_distance s goal) hzs
                (inv.keys_zsum current hcur_mem) (by omega)
            have hcur_old : current ∉ (ballAround s (cube_distance s goal)).filter
                fun u => u ∈ keysOf cf ∧ u ∉ current :: rest := by
              rw [Finset.mem_filter]
              rintro ⟨_, _, hcon⟩
              exact hcon (List.mem_cons_self _ _)
            have hins : insert current ((ballAround s (cube_distance s goal)).filter
                fun u => u ∈ keysOf cf ∧ u ∉ current :: rest) ⊆
                (ballAround s (cube_distance s goal)).filter
                  fun u => u ∈ keysOf (cf ++ ((cube_neighbors current).filter
                    (fun n => !decide (n ∈ (∅ : Finset CubeHex)) &&
                      !decide (n ∈ keysOf cf))).map fun n => (n, some current)) ∧
                    u ∉ rest ++ (cube_neighbors current).filter
                      (fun n => !decide (n ∈ (∅ : Finset CubeHex)) &&
                        !decide (n ∈ keysOf cf)) := by
              intro x hx
              rw [Finset.mem_filter, hkeys']
              rcases Finset.mem_insert.mp hx with rfl | hx
              · refine ⟨hcur_ball, List.mem_append_left _ hcur_mem, ?_⟩
                intro hcon
                rcases List.mem_append.mp hcon with hcon | hcon
                · exact hcur_rest hcon
                · exact (hnew_props x hcon).2.2 hcur_mem
              · rw [Finset.mem_filter] at hx
                obtain ⟨hball, hk, hnf⟩ := hx
                refine ⟨hball, List.mem_append_left _ hk, ?_⟩
                intro hcon
                rcases List.mem_append.mp hcon with hcon | hcon
                · exact hnf (List.mem_cons_of_mem _ hcon)
                · exact (hnew_props x hcon).2.2 hk
            have hsub_ball : ((ballAround s (cube_distance s goal)).filter
                fun u => u ∈ keysOf (cf ++ ((cube_neighbors current).filter
                  (fun n => !decide (n ∈ (∅ : Finset CubeHex)) &&
                    !decide (n ∈ keysOf cf))).map fun n => (n, some current)) ∧
                  u ∉ rest ++ (cube_neighbors current).filter
                    (fun n => !decide (n ∈ (∅ : Finset CubeHex)) &&
                      !decide (n ∈ keysOf cf))).card ≤
                (ballAround s (cube_distance s goal)).card :=
              Finset.card_le_card (Finset.filter_subset _ _)
            have hcard := Finset.card_le_card hins
            rw [Finset.card_insert_of_not_mem hcur_old] at hcard
            exact ih k' _ _ inv' (by omega)

theorem cube_path_length_sound (s goal : CubeHex) (hzs : zsum s)
    (fuel : ℕ) (p : List CubeHex)
    (hp : cube_path fuel s goal ∅ = some (some p)) :
    p.length = cube_distance s goal + 1 := by
  unfold cube_path at hp
  rcases hloop : cube_pathLoop goal ∅ fuel [s] [(s, none)] with _ | cf
  · rw [hloop] at hp
    cases hp
  · rw [hloop] at hp
    dsimp only at hp
    obtain ⟨k', fr', inv'⟩ := cube_pathLoop_PInv s goal hzs fuel 0 [s] [(s, none)]
      (PInv_init s goal hzs) cf hloop
    rcases halook : alook cf goal with _ | v
    · rw [halook] at hp
      cases hp
    · rw [halook] at hp
      dsimp only at hp
      have hgmem : goal ∈ keysOf cf := mem_keysOf.mpr ⟨v, alook_eq_some halook⟩
      have hlen_bound : cube_distance s goal < cf.length + 1 := by
        have hcc := chain_card s cf inv'.parent_some inv'.j2
          (cube_distance s goal) goal hgmem rfl
        have hfle : ((keysOf cf).toFinset.filter
            fun u => cube_distance s u ≤ cube_distance s goal).card ≤
            (keysOf cf).toFinset.card :=
          Finset.card_le_card (Finset.filter_subset _ _)
        have htf : (keysOf cf).toFinset.card ≤ (keysOf cf).length :=
          List.toFinset_card_le _
        have hlk : (keysOf cf).length = cf.length := List.length_map _ _
        omega
      obtain ⟨q, hq, hqlen⟩ := walk_len s cf inv'.keys_nodup inv'.parent_some
        inv'.j2 (cf.length + 1) goal [] hgmem hlen_bound
      rw [hq] at hp
      have hqp : q = p := by simpa using hp
      subst hqp
      simpa using hqlen

theorem cube_path_exists (s goal : CubeHex) (hzs : zsum s) (hzg : zsum goal) :
    ∃ (fuel : ℕ) (p : List CubeHex), cube_path fuel s goal ∅ = some (some p) := by
  obtain ⟨cf, hloop, hgmem⟩ := cube_pathLoop_term s goal hzs hzg
    ((ballAround s (cube_distance s goal)).card + 1) 0 [s] [(s, none)]
    (PInv_init s goal hzs)
    (by
      have := Nat.sub_le (ballAround s (cube_distance s goal)).card
        (((ballAround s (cube_distance s goal)).filter
          fun u => u ∈ keysOf [((s, none) : CubeHex × Option CubeHex)] ∧
            u ∉ [s]).card)
      omega)
  obtain ⟨k', fr', inv'⟩ := cube_pathLoop_PInv s goal hzs
    ((ballAround s (cube_distance s goal)).card + 1) 0 [s] [(s, none)]
    (PInv_init s goal hzs) cf hloop
  obtain ⟨w, hw⟩ := mem_keysOf.mp hgmem
  have halook : alook cf goal = some w := alook_mem_nodup inv'.keys_nodup hw
  have hlen_bound : cube_distance s goal < cf.length + 1 := by
    have hcc := chain_card s cf inv'.parent_some inv'.j2
      (cube_distance s goal) goal hgmem rfl
    have hfle : ((keysOf cf).toFinset.filter
        fun u => cube_distance s u ≤ cube_distance s goal).card ≤
        (keysOf cf).toFinset.card :=
      Finset.card_le_card (Finset.filter_subset _ _)
    have htf : (keysOf cf).toFinset.card ≤ (keysOf cf).length :=
      List.toFinset_card_le _
    have hlk : (keysOf cf).length = cf.length := List.length_map _ _
    omega
  obtain ⟨q, hq, hqlen⟩ := walk_len s cf inv'.keys_nodup inv'.parent_some
    inv'.j2 (cf.length + 1) goal [] hgmem hlen_bound
  refine ⟨(ballAround s (cube_distance s goal)).card + 1, q, ?_⟩
  unfold cube_path
  rw [hloop]
  dsimp only
  rw [halook]
  dsimp only
  rw [hq]
  rfl

theorem bfs_expand_skip (obstacles : Finset CubeHex) (md : Option ℕ)
    (current : CubeHex) (dcur : ℕ)
    (st : List CubeHex × List (CubeHex × Option CubeHex) × List (CubeHex × ℕ))
    (hguard : (match md with
      | some m => decide (m ≤ dcur)
      | none => false : Bool) = true) :
    bfs_expand obstacles md current dcur st = st := by
  unfold bfs_expand
  have key : ∀ (ns : List CubeHex)
      (st2 : List CubeHex × List (CubeHex × Option CubeHex) × List (CubeHex × ℕ)),
      ns.foldl (fun st2 neighbor =>
        if neighbor ∈ obstacles then st2
        else if neighbor ∈ keysOf st2.2.2 then st2
        else if (match md with
          | some m => decide (m ≤ dcur)
          | none => false : Bool) then st2
        else (st2.1 ++ [neighbor], st2.2.1 ++ [(neighbor, some current)],
              st2.2.2 ++ [(neighbor, dcur + 1)])) st2 = st2 := by
    intro ns
    induction ns with
    | nil => intro st2; rfl
    | cons n t ih =>
        intro st2
        rw [List.foldl_cons]
        by_cases h1 : n ∈ obstacles
        · rw [if_pos h1]
          exact ih st2
        · rw [if_neg h1]
          by_cases h2 : n ∈ keysOf st2.2.2
          · rw [if_pos h2]
            exact ih st2
          · rw [if_neg h2, if_pos hguard]
            exact ih st2
  exact key (cube_neighbors current) st

theorem bfs_fold_eq (md : Option ℕ) (current : CubeHex) (dcur : ℕ)
    (hguard : (match md with
      | some m => decide (m ≤ dcur)
      | none => false : Bool) = false) :
    ∀ (ns : List CubeHex), ns.Nodup →
    ∀ (front : List CubeHex) (cf : List (CubeHex × Option CubeHex))
      (dist : List (CubeHex × ℕ)),
    ns.foldl (fun st2 neighbor =>
      if neighbor ∈ (∅ : Finset CubeHex) then st2
      else if neighbor ∈ keysOf st2.2.2 then st2
      else if (match md with
        | some m => decide (m ≤ dcur)
        | none => false : Bool) then st2
      else (st2.1 ++ [neighbor], st2.2.1 ++ [(neighbor, some current)],
            st2.2.2 ++ [(neighbor, dcur + 1)])) (front, cf, dist) =
    (front ++ ns.filter fun n => !decide (n ∈ keysOf dist),
     cf ++ (ns.filter fun n => !decide (n ∈ keysOf dist)).map
       fun n => (n, some current),
     dist ++ (ns.filter fun n => !decide (n ∈ keysOf dist)).map
       fun n => (n, dcur + 1)) := by
  intro ns
  induction ns with
  | nil =>
      intro _ front cf dist
      simp
  | cons n t ih =>
      intro hnd front cf dist
      rw [List.nodup_cons] at hnd
      rw [List.foldl_cons]
      rw [if_neg (Finset.not_mem_empty n)]
      by_cases h2 : n ∈ keysOf dist
      · rw [show keysOf ((front, cf, dist) :
          List CubeHex × List (CubeHex × Option CubeHex) ×
            List (CubeHex × ℕ)).2.2 = keysOf dist from rfl]
        rw [if_pos h2, ih hnd.2 front cf dist]
        have hc : (!decide (n ∈ keysOf dist)) = false := by
          simp [h2]
        simp [List.filter_cons, hc]
      · rw [show keysOf ((front, cf, dist) :
          List CubeHex × List (CubeHex × Option CubeHex) ×
            List (CubeHex × ℕ)).2.2 = keysOf dist from rfl]
        rw [if_neg h2, if_neg (by simp [hguard])]
        rw [show (((front, cf, dist) :
          List CubeHex × List (CubeHex × Option CubeHex) ×
            List (CubeHex × ℕ)).1 ++ [n],
          ((front, cf, dist) :
          List CubeHex × List (CubeHex × Option CubeHex) ×
            List (CubeHex × ℕ)).2.1 ++ [(n, some current)],
          ((front, cf, dist) :
          List CubeHex × List (CubeHex × Option CubeHex) ×
            List (CubeHex × ℕ)).2.2 ++ [(n, dcur + 1)]) =
          ((front ++ [n], cf ++ [(n, some current)], dist ++ [(n, dcur + 1)]) :
          List CubeHex × List (CubeHex × Option CubeHex) ×
            List (CubeHex × ℕ)) from rfl]
        rw [ih hnd.2 (front ++ [n]) (cf ++ [(n, some current)])
          (dist ++ [(n, dcur + 1)])]
        have hfilter : (t.filter fun m =>
            !decide (m ∈ keysOf (dist ++ [(n, dcur + 1)]))) =
            t.filter fun m => !decide (m ∈ keysOf dist) := by
          apply List.filter_congr
          intro m hm
          have hmn : m ≠ n := fun heq => hnd.1 (heq ▸ hm)
          rw [keysOf_append]
          rw [show keysOf [((n, dcur + 1) : CubeHex × ℕ)] = [n] from rfl]
          by_cases hmc : m ∈ keysOf dist
          · simp [hmc]
          · simp [hmc, hmn]
        rw [hfilter]
        have hc : (!decide (n ∈ keysOf dist)) = true := by
          simp [h2]
        simp [List.filter_cons, hc, List.append_assoc]

theorem bfs_expand_eq (md : Option ℕ) (current : CubeHex) (dcur : ℕ)
    (rest : List CubeHex) (cf : List (CubeHex × Option CubeHex))
    (dist : List (CubeHex × ℕ))
    (hguard : (match md with
      | some m => decide (m ≤ dcur)
      | none => false : Bool) = false) :
    bfs_expand ∅ md current dcur (rest, cf, dist) =
    (rest ++ (cube_neighbors current).filter fun n => !decide (n ∈ keysOf dist),
     cf ++ ((cube_neighbors current).filter fun n => !decide (n ∈ keysOf dist)).map
       fun n => (n, some current),
     dist ++ ((cube_neighbors current).filter fun n => !decide (n ∈ keysOf dist)).map
       fun n => (n, dcur + 1)) := by
  unfold bfs_expand
  exact bfs_fold_eq md current dcur hguard (cube_neighbors current)
    (cube_neighbors_nodup current) rest cf dist

/-- The `max_distance` cap on discovered levels: with a cap `m`, level `d`
hexes can appear in the distance map only when `d ≤ m`. -/
def bfsCap : Option ℕ → ℕ → Prop
  | none, _ => True
  | some m, d => d ≤ m

/-- Whether a hex dequeued at level `d` is expanded at all under the
`max_distance` cap. -/
def bfsUnder : Option ℕ → ℕ → Prop
  | none, _ => True
  | some m, d => d < m

theorem bfs_guard_false_iff (md : Option ℕ) (dcur : ℕ) :
    ((match md with
      | some m => decide (m ≤ dcur)
      | none => false : Bool) = false) ↔ bfsUnder md dcur := by
  rcases md with _ | m <;> simp [bfsUnder] <;> omega

theorem bfs_guard_true_iff (md : Option ℕ) (dcur : ℕ) :
    ((match md with
      | some m => decide (m ≤ dcur)
      | none => false : Bool) = true) ↔ ¬ bfsUnder md dcur := by
  rcases md with _ | m <;> simp [bfsUnder] <;> omega

theorem keysOf_map_fst {β : Type*} (f : CubeHex → β) (l : List CubeHex) :
    keysOf (l.map fun n => (n, f n)) = l := by
  unfold keysOf
  rw [List.map_map]
  exact List.map_id'' (fun x => rfl) l

/-- Invariant of the `cube_bfs` loop on an obstacle-free grid: the distance
map holds only zero-sum hexes with their exact grid distance from `s`, the
frontier splits into a level-`k` prefix and a level-`k+1` suffix, every hex
within distance `k` and under the cap is discovered, and every dequeued hex
that was expanded has all its neighbors discovered. -/
structure BInv (s : CubeHex) (md : Option ℕ) (k : ℕ) (frontier : List CubeHex)
    (dist : List (CubeHex × ℕ)) : Prop where
  keys_zsum : ∀ u ∈ keysOf dist, zsum u
  fr_sub : ∀ x ∈ frontier, x ∈ keysOf dist
  shape : ∃ A B, frontier = A ++ B ∧ (A = [] → B = []) ∧
    (∀ u ∈ A, cube_distance s u = k) ∧ ∀ u ∈ B, cube_distance s u = k + 1
  j4 : ∀ u : CubeHex, zsum u → cube_distance s u ≤ k →
    bfsCap md (cube_distance s u) → u ∈ keysOf dist
  closure : ∀ u ∈ keysOf dist, u ∉ frontier → bfsUnder md (cube_distance s u) →
    ∀ n ∈ cube_neighbors u, n ∈ keysOf dist
  dval : ∀ e ∈ dist, e.2 = cube_distance s e.1

theorem BInv_init (s : CubeHex) (md : Option ℕ) (hzs : zsum s) :
    BInv s md 0 [s] [(s, 0)] := by
  have hkeys : keysOf [((s, 0) : CubeHex × ℕ)] = [s] := rfl
  constructor
  · intro u hu
    rw [hkeys, List.mem_singleton] at hu
    rw [hu]
    exact hzs
  · intro x hx
    rw [hkeys]
    exact hx
  · refine ⟨[s], [], rfl, fun h => absurd h (by simp), ?_, by simp⟩
    intro u hu
    rw [List.mem_singleton] at hu
    rw [hu]
    exact cube_distance_self s
  · intro u hu hd _
    rw [hkeys, List.mem_singleton]
    have hd0 : cube_distance s u = 0 := Nat.le_zero.mp hd
    exact ((cube_distance_eq_zero_iff s u hzs hu).mp hd0).symm
  · intro u hu hnf _
    rw [hkeys, List.mem_singleton] at hu
    rw [hu] at hnf
    exact absurd (List.mem_singleton.mpr rfl) hnf
  · intro e he
    rw [List.mem_singleton] at he
    rw [he]
    rw [show ((s, 0) : CubeHex × ℕ).2 = 0 from rfl,
      show ((s, 0) : CubeHex × ℕ).1 = s from rfl, cube_distance_self]

/-- The boolean `max_distance` test of `bfs_expand`. -/
def bfsGuard (md : Option ℕ) (dcur : ℕ) : Bool :=
  match md with
  | some m => decide (m ≤ dcur)
  | none => false

theorem BInv_step (s : CubeHex) (md : Option ℕ) (hzs : zsum s) (k dcur : ℕ)
    (current : CubeHex) (rest : List CubeHex)
    (cf : List (CubeHex × Option CubeHex)) (dist : List (CubeHex × ℕ))
    (inv : BInv s md k (current :: rest) dist)
    (hdcur : dcur = cube_distance s current) :
    ∃ k', BInv s md k'
      (bfs_expand ∅ md current dcur (rest, cf, dist)).1
      (bfs_expand ∅ md current dcur (rest, cf, dist)).2.2 := by
  have hcur_mem : current ∈ keysOf dist :=
    inv.fr_sub current (List.mem_cons_self _ _)
  have hcur_zsum : zsum current := inv.keys_zsum current hcur_mem
  obtain ⟨A, B, hAB, hABne, hAlvl, hBlvl⟩ := inv.shape
  have hAne : A ≠ [] := by
    intro hA
    rw [hA, hABne hA] at hAB
    cases hAB
  obtain ⟨a0, A', rfl⟩ := List.exists_cons_of_ne_nil hAne
  rw [List.cons_append] at hAB
  injection hAB with h1 hrest
  subst h1
  have hcur_lvl : cube_distance s current = k :=
    hAlvl current (List.mem_cons_self _ _)
  rcases Bool.eq_false_or_eq_true (bfsGuard md dcur) with hgb | hgb
  ·   rw [bfs_expand_skip ∅ md current dcur (rest, cf, dist) hgb]
      dsimp only
      have hnu : ¬ bfsUnder md dcur := (bfs_guard_true_iff md dcur).mp hgb
      have hclosure : ∀ k'' : ℕ, ∀ u ∈ keysOf dist, u ∉ rest →
          bfsUnder md (cube_distance s u) →
          ∀ n ∈ cube_neighbors u, n ∈ keysOf dist := by
        intro k'' u hu hnf hub n hnb
        by_cases hc : u = current
        · exfalso
          rw [hc, ← hdcur] at hub
          exact hnu hub
        · refine inv.closure u hu ?_ hub n hnb
          intro hcon
          rcases List.mem_cons.mp hcon with hcon | hcon
          · exact hc hcon
          · exact hnf hcon
      by_cases hA' : A' = []
      · subst hA'
        rw [List.nil_append] at hrest
        subst hrest
        refine ⟨k + 1, inv.keys_zsum, ?_, ?_, ?_, hclosure 0, inv.dval⟩
        · intro x hx
          exact inv.fr_sub x (List.mem_cons_of_mem _ hx)
        · refine ⟨rest, [], (List.append_nil rest).symm, fun _ => rfl, hBlvl, by simp⟩
        · intro u hu hd hcap
          rcases Nat.lt_or_ge (cube_distance s u) (k + 1) with hlt | hge
          · refine inv.j4 u hu (by omega) hcap
          · exfalso
            have hund : bfsUnder md dcur := by
              rcases md with _ | m
              · exact trivial
              · have hdk : cube_distance s u = k + 1 := by omega
                rw [hdk] at hcap
                unfold bfsCap at hcap
                unfold bfsUnder
                omega
            exact hnu hund
      · subst hrest
        refine ⟨k, inv.keys_zsum, ?_, ?_, inv.j4, hclosure 0, inv.dval⟩
        · intro x hx
          exact inv.fr_sub x (List.mem_cons_of_mem _ hx)
        · exact ⟨A', B, rfl, fun h => absurd h hA', fun u hu =>
            hAlvl u (List.mem_cons_of_mem _ hu), hBlvl⟩
  ·   rw [bfs_expand_eq md current dcur rest cf dist hgb]
      dsimp only
      have hund : bfsUnder md dcur := (bfs_guard_false_iff md dcur).mp hgb
      have hnew_props : ∀ n ∈ (cube_neighbors current).filter
          fun n => !decide (n ∈ keysOf dist),
          n ∈ cube_neighbors current ∧ n ∉ keysOf dist := by
        intro n hn
        rw [List.mem_filter] at hn
        refine ⟨hn.1, ?_⟩
        simpa using hn.2
      have hkeys' : keysOf (dist ++ ((cube_neighbors current).filter
          fun n => !decide (n ∈ keysOf dist)).map fun n => (n, dcur + 1)) =
          keysOf dist ++ (cube_neighbors current).filter
            fun n => !decide (n ∈ keysOf dist) := by
        rw [keysOf_append, keysOf_map_fst (fun _ => dcur + 1)]
      have hnewD : ∀ n ∈ (cube_neighbors current).filter
          fun n => !decide (n ∈ keysOf dist),
          cube_distance s n = k + 1 ∧ zsum n := by
        intro n hn
        obtain ⟨hnb, hnk⟩ := hnew_props n hn
        have hnz : zsum n := zsum_neighbors hcur_zsum n hnb
        have hle : cube_distance s n ≤ k + 1 := by
          have := cube_distance_neighbor_le s current n hnb
          omega
        have hgt : ¬ cube_distance s n ≤ k := by
          intro hcon
          refine hnk (inv.j4 n hnz hcon ?_)
          rcases md with _ | m
          · exact trivial
          · unfold bfsUnder at hund
            unfold bfsCap
            omega
        exact ⟨by omega, hnz⟩
      have hnbr_keys : ∀ n ∈ cube_neighbors current,
          n ∈ keysOf dist ++ (cube_neighbors current).filter
            fun n => !decide (n ∈ keysOf dist) := by
        intro n hnb
        by_cases hk2 : n ∈ keysOf dist
        · exact List.mem_append_left _ hk2
        · refine List.mem_append_right _ ?_
          rw [List.mem_filter]
          exact ⟨hnb, by simp [hk2]⟩
      have keys_zsum' : ∀ u ∈ keysOf (dist ++ ((cube_neighbors current).filter
          fun n => !decide (n ∈ keysOf dist)).map fun n => (n, dcur + 1)),
          zsum u := by
        rw [hkeys']
        intro u hu
        rcases List.mem_append.mp hu with hu | hu
        · exact inv.keys_zsum u hu
        · exact (hnewD u hu).2
      have fr_sub' : ∀ x ∈ rest ++ (cube_neighbors current).filter
          fun n => !decide (n ∈ keysOf dist),
          x ∈ keysOf (dist ++ ((cube_neighbors current).filter
            fun n => !decide (n ∈ keysOf dist)).map fun n => (n, dcur + 1)) := by
        rw [hkeys']
        intro x hx
        rcases List.mem_append.mp hx with hx | hx
        · exact List.mem_append_left _ (inv.fr_sub x (List.mem_cons_of_mem _ hx))
        · exact List.mem_append_right _ hx
      have closure' : ∀ u ∈ keysOf (dist ++ ((cube_neighbors current).filter
          fun n => !decide (n ∈ keysOf dist)).map fun n => (n, dcur + 1)),
          u ∉ rest ++ (cube_neighbors current).filter
            (fun n => !decide (n ∈ keysOf dist)) →
          bfsUnder md (cube_distance s u) →
          ∀ n ∈ cube_neighbors u,
            n ∈ keysOf (dist ++ ((cube_neighbors current).filter
              fun n => !decide (n ∈ keysOf dist)).map fun n => (n, dcur + 1)) := by
        rw [hkeys']
        intro u hu hnf hub n hnb
        rcases List.mem_append.mp hu with hu | hu
        · by_cases hc : u = current
          · subst hc
            exact hnbr_keys n hnb
          · have hunf : u ∉ current :: rest := by
              intro hcon
              rcases List.mem_cons.mp hcon with hcon | hcon
              · exact hc hcon
              · exact hnf (List.mem_append_left _ hcon)
            exact List.mem_append_left _ (inv.closure u hu hunf hub n hnb)
        · exact absurd (List.mem_append_right _ hu) hnf
      have dval' : ∀ e ∈ dist ++ ((cube_neighbors current).filter
          fun n => !decide (n ∈ keysOf dist)).map fun n => (n, dcur + 1),
          e.2 = cube_distance s e.1 := by
        intro e he
        rcases List.mem_append.mp he with he | he
        · exact inv.dval e he
        · rw [List.mem_map] at he
          obtain ⟨n, hn, rfl⟩ := he
          rw [show ((n, dcur + 1) : CubeHex × ℕ).2 = dcur + 1 from rfl,
            show ((n, dcur + 1) : CubeHex × ℕ).1 = n from rfl,
            (hnewD n hn).1]
          omega
      by_cases hA' : A' = []
      · subst hA'
        rw [List.nil_append] at hrest
        subst hrest
        refine ⟨k + 1, keys_zsum', fr_sub', ?_, ?_, closure', dval'⟩
        · refine ⟨rest ++ (cube_neighbors current).filter
            fun n => !decide (n ∈ keysOf dist), [],
            (List.append_nil _).symm, fun _ => rfl, ?_, by simp⟩
          intro u hu
          rcases List.mem_append.mp hu with hu | hu
          · exact hBlvl u hu
          · exact (hnewD u hu).1
        · rw [hkeys']
          intro u hu hd hcap
          rcases Nat.lt_or_ge (cube_distance s u) (k + 1) with hlt | hge
          · exact List.mem_append_left _ (inv.j4 u hu (by omega) hcap)
          · have hdk : cube_distance s u = k + 1 := by omega
            have hus : u ≠ s := by
              intro hcon
              rw [hcon, cube_distance_self] at hdk
              cases hdk
            obtain ⟨v, hvnb, hvd⟩ := cube_distance_decr u s hu hzs hus
            rw [cube_distance_comm v s, cube_distance_comm u s, hdk] at hvd
            have hvz : zsum v := zsum_neighbors hu v hvnb
            have hvk : cube_distance s v = k := by omega
            have hvcap : bfsCap md (cube_distance s v) := by
              rcases md with _ | m
              · exact trivial
              · rw [hdk] at hcap
                unfold bfsCap at hcap ⊢
                omega
            have hvmem : v ∈ keysOf dist := inv.j4 v hvz (by omega) hvcap
            have hunb : u ∈ cube_neighbors v := neighbor_symm hvnb
            have hvub : bfsUnder md (cube_distance s v) := by
              rcases md with _ | m
              · exact trivial
              · rw [hdk] at hcap
                rw [hvk]
                unfold bfsCap at hcap
                unfold bfsUnder
                omega
            by_cases hvf : v ∈ current :: rest
            · rcases List.mem_cons.mp hvf with hvc | hvr
              · rw [hvc] at hunb
                exact hnbr_keys u hunb
              · have := hBlvl v hvr
                omega
            · exact List.mem_append_left _ (inv.closure v hvmem hvf hvub u hunb)
      · subst hrest
        refine ⟨k, keys_zsum', fr_sub', ?_, ?_, closure', dval'⟩
        · refine ⟨A', B ++ (cube_neighbors current).filter
            fun n => !decide (n ∈ keysOf dist),
            List.append_assoc A' B _, fun h => absurd h hA', ?_, ?_⟩
          · intro u hu
            exact hAlvl u (List.mem_cons_of_mem _ hu)
          · intro u hu
            rcases List.mem_append.mp hu with hu | hu
            · exact hBlvl u hu
            · exact (hnewD u hu).1
        · rw [hkeys']
          intro u hu hd hcap
          exact List.mem_append_left _ (inv.j4 u hu hd hcap)

theorem cube_bfsLoop_sound (s : CubeHex) (goals : Finset CubeHex) (md : Option ℕ)
    (hzs : zsum s) :
    ∀ (fuel k : ℕ) (frontier : List CubeHex)
      (cf : List (CubeHex × Option CubeHex)) (dist : List (CubeHex × ℕ))
      (fg : Finset CubeHex),
    BInv s md k frontier dist →
    ∀ dm, cube_bfsLoop goals ∅ md fuel frontier cf dist fg = some dm →
    ∀ e ∈ dm, e.2 = cube_distance s e.1 := by
  intro fuel
  induction fuel with
  | zero =>
      intro k frontier cf dist fg inv dm hloop
      cases frontier with
      | nil =>
          simp only [cube_bfsLoop, Option.some_inj] at hloop
          subst hloop
          exact inv.dval
      | cons current rest => cases hloop
  | succ fuel ih =>
      intro k frontier cf dist fg inv dm hloop
      cases frontier with
      | nil =>
          simp only [cube_bfsLoop, Option.some_inj] at hloop
          subst hloop
          exact inv.dval
      | cons current rest =>
          simp only [cube_bfsLoop] at hloop
          by_cases hbreak : current ∈ goals ∧
              (if current ∈ goals then insert current fg else fg).card = goals.card
          · rw [if_pos hbreak, Option.some_inj] at hloop
            subst hloop
            exact inv.dval
          · rw [if_neg hbreak] at hloop
            rcases hd : alook dist current with _ | dcur
            · rw [hd] at hloop
              cases hloop
            · rw [hd] at hloop
              dsimp only at hloop
              have hdcur : dcur = cube_distance s current := by
                have hmem : (current, dcur) ∈ dist := alook_eq_some hd
                have := inv.dval (current, dcur) hmem
                exact this
              obtain ⟨k', inv'⟩ :=
                BInv_step s md hzs k dcur current rest cf dist inv hdcur
              exact ih k' _ _ _ _ inv' dm hloop

theorem cube_bfs_sound (fuel : ℕ) (s : CubeHex) (goals : Finset CubeHex)
    (md : Option ℕ) (dm : List (CubeHex × ℕ)) (hzs : zsum s)
    (hdm : cube_bfs fuel s goals ∅ md = some dm) :
    ∀ e ∈ dm, e.2 = cube_distance s e.1 := by
  unfold cube_bfs at hdm
  exact cube_bfsLoop_sound s goals md hzs fuel 0 [s] [(s, none)] [(s, 0)] ∅
    (BInv_init s md hzs) dm hdm

/-- Claim C5: on an obstacle-free grid, for every zero-sum start and goal the
shortest-path search terminates (for sufficient fuel) with a genuine path,
every returned path contains exactly `cube_distance start goal + 1` hexes,
and every distance the multi-goal BFS records equals the exact grid distance
from the start — in particular for every goal it reports. -/
theorem bfs_shortest_correct :
    (∀ s g : CubeHex, zsum s → zsum g →
      (∀ (fuel : ℕ) (p : List CubeHex),
        cube_path fuel s g ∅ = some (some p) →
        p.length = cube_distance s g + 1) ∧
      ∃ (fuel : ℕ) (p : List CubeHex), cube_path fuel s g ∅ = some (some p)) ∧
    (∀ (fuel : ℕ) (s : CubeHex) (goals : Finset CubeHex) (md : Option ℕ)
      (dm : List (CubeHex × ℕ)), zsum s → cube_bfs fuel s goals ∅ md = some dm →
      ∀ e ∈ dm, e.2 = cube_distance s e.1) := by
  constructor
  · intro s g hzs hzg
    exact ⟨fun fuel p hp => cube_path_length_sound s g hzs fuel p hp,
           cube_path_exists s g hzs hzg⟩
  · intro fuel s goals md dm hzs hdm
    exact cube_bfs_sound fuel s goals md dm hzs hdm

/-- Witness for C5 at concrete inputs: a concrete returned path has exactly
`distance + 1` hexes, and a concrete BFS distance map records exact grid
distances. -/
theorem bfs_shortest_correct_witness :
    ([(0, 0, 0), (1, 0, -1), (2, 0, -2)] : List CubeHex).length =
      cube_distance (0, 0, 0) (2, 0, -2) + 1 ∧
    ∀ e ∈ ([((0, 0, 0), 0)] : List (CubeHex × ℕ)),
      e.2 = cube_distance (0, 0, 0) e.1 :=
  ⟨(bfs_shortest_correct.1 (0, 0, 0) (2, 0, -2) (by decide) (by decide)).1 10
     [(0, 0, 0), (1, 0, -1), (2, 0, -2)] (by decide),
   bfs_shortest_correct.2 2 (0, 0, 0) {(0, 0, 0)} none [((0, 0, 0), 0)]
     (by decide) (by decide)⟩
